import Mathlib

/-!
Verification of the restic scanner (`internal/archiver/scanner.go`).

The Go code is shallowly embedded: errors (`error`) become `Option GoErr`
(`none` = nil), the lazy metadata provider becomes an explicit tree value
whose `Init`/`Children` outcomes are stored up front (the code reads them
at most once), the `context` cancellation signal becomes the index of the
first `ctx.Err()` call that reports cancellation, and the `Result` progress
callback plus the `Init` (stat) and `Error` (policy) calls are recorded in
an event trace so that callback ordering claims are expressible.
Machine integers (`uint`, `uint64`) are modelled as `Nat` reduced mod `2^64`
at each arithmetic step of the Go code.
-/

set_option linter.unusedVariables false

namespace ResticScan

/-- Go `error` values; a Go `error` result is `Option GoErr` with `none` = nil. -/
abbrev GoErr := String

/-- Modulus of Go's 64-bit unsigned arithmetic (`uint` / `uint64`). -/
def W64 : Nat := 2 ^ 64

/-- Classification of a filesystem entry by `target.Mode()`:
`IsRegular`, `IsDir`, or anything else. -/
inductive Mode where
  | regular : Mode
  | dir : Mode
  | other : Mode
deriving DecidableEq, Repr

/-- `ScanStats` from scanner.go: `Files, Dirs, Others uint; Bytes uint64`.
All fields are zero-initialised, as Go's `ScanStats{}` literal does. -/
structure ScanStats where
  Files : Nat := 0
  Dirs : Nat := 0
  Others : Nat := 0
  Bytes : Nat := 0
deriving DecidableEq, Repr

/-- `stats.Files++; stats.Bytes += uint64(target.Size())` — the regular-file
branch of `scan`, in Go's wrapping 64-bit unsigned arithmetic. -/
def addFile (stats : ScanStats) (sz : Nat) : ScanStats :=
  { stats with
      Files := (stats.Files + 1) % W64
      Bytes := (stats.Bytes + sz) % W64 }

/-- `stats.Dirs++` in Go's wrapping 64-bit unsigned arithmetic. -/
def addDir (stats : ScanStats) : ScanStats :=
  { stats with Dirs := (stats.Dirs + 1) % W64 }

/-- `stats.Others++` in Go's wrapping 64-bit unsigned arithmetic. -/
def addOther (stats : ScanStats) : ScanStats :=
  { stats with Others := (stats.Others + 1) % W64 }

/-- One filesystem entry as seen through `restic.LazyFileMetadata`.
`Name`/`Path` are cheap; `initRes` is the error outcome of `Init()`
(`none` = success); `mode` and `size` are the post-`Init` metadata;
`childRes` is the error outcome of `Children()` and `children` the listed
entries (in raw filesystem enumeration order), both meaningful for
directories. -/
inductive LazyFileMetadata where
  | mk (name : String) (path : String) (initRes : Option GoErr) (mode : Mode)
      (size : Nat) (childRes : Option GoErr) (children : List LazyFileMetadata)

namespace LazyFileMetadata

/-- `target.Name()`. -/
def name : LazyFileMetadata → String
  | mk n _ _ _ _ _ _ => n

/-- `target.Path()`. -/
def path : LazyFileMetadata → String
  | mk _ p _ _ _ _ _ => p

/-- Outcome of `target.Init()`. -/
def initRes : LazyFileMetadata → Option GoErr
  | mk _ _ i _ _ _ _ => i

/-- `target.Mode()` classification. -/
def mode : LazyFileMetadata → Mode
  | mk _ _ _ m _ _ _ => m

/-- `uint64(target.Size())`. -/
def size : LazyFileMetadata → Nat
  | mk _ _ _ _ s _ _ => s

/-- Error outcome of `target.Children()`. -/
def childRes : LazyFileMetadata → Option GoErr
  | mk _ _ _ _ _ c _ => c

/-- Entries returned by `target.Children()`, in enumeration order. -/
def children : LazyFileMetadata → List LazyFileMetadata
  | mk _ _ _ _ _ _ cs => cs

end LazyFileMetadata

/-- Lexicographic comparison of character lists (strict), mirroring Go's
byte-wise `<` on strings: UTF-8 byte order coincides with code-point order.
Defined directly (rather than through `String.lt`) so that it is computable
by the kernel; `strLt_iff` below proves it equal to Lean's `String` order. -/
def charListLt : List Char → List Char → Bool
  | _, [] => false
  | [], _ :: _ => true
  | a :: as, b :: bs => if a < b then true else if b < a then false else charListLt as bs

/-- Go's `<` on strings (byte-wise lexicographic). -/
def strLt (a b : String) : Bool := charListLt a.toList b.toList

/-- Insert an entry into a name-sorted list, keeping it sorted by `Name`
(stable: an entry is placed before the first existing entry that is not
smaller). -/
def insertByName (x : LazyFileMetadata) : List LazyFileMetadata → List LazyFileMetadata
  | [] => [x]
  | y :: ys => if strLt y.name x.name then y :: insertByName x ys else x :: y :: ys

/-- The `sort.Slice(children, ...Name() < ...Name())` call of `scan`:
sort entries by name (insertion sort; deterministic, and identical to Go's
result whenever the names are distinct). -/
def sortByName : List LazyFileMetadata → List LazyFileMetadata
  | [] => []
  | c :: cs => insertByName c (sortByName cs)

/-- Observable events of one scan: `initCall p` = `Init()` (the stat) ran on
the entry with path `p`; `errCall p e` = the `Error` policy was invoked with
`(p, e)`; `result item stats` = the `Result` callback was invoked. -/
inductive Event where
  | initCall (path : String) : Event
  | errCall (path : String) (e : GoErr) : Event
  | result (item : String) (stats : ScanStats) : Event
deriving DecidableEq, Repr

/-- State threaded through the embedded scan: `checks` counts the
`ctx.Err()` calls made so far (the cancellation clock), `stats` is the
`ScanStats` value the Go code threads by value, and `trace` is the event
log. -/
structure ScanState where
  checks : Nat
  stats : ScanStats
  trace : List Event
deriving DecidableEq, Repr

/-- A cancellation signal: `none` = never cancelled; `some k` = the `k`-th
`ctx.Err()` call (0-based) and every later one reports cancellation. This is
fully general for a monotone signal observed at a sequence of check points. -/
def ctxErr (ca : Option Nat) (checks : Nat) : Bool :=
  match ca with
  | none => false
  | some k => decide (k ≤ checks)

/-- The `Scanner` policy fields from scanner.go (the `Frontend` capability is
opaque to the scan logic and omitted; the `Result` callback is modelled by
the event trace since it returns nothing). -/
structure Scanner where
  SelectByName : String → Bool
  Select : LazyFileMetadata → Bool
  Error : String → GoErr → Option GoErr

/-- `NewScanner`: the default policies — select everything, propagate every
error unchanged. -/
def NewScanner : Scanner :=
  { SelectByName := fun _ => true
    Select := fun _ => true
    Error := fun _ err => some err }

mutual

/-- `(*Scanner).scan` from scanner.go lines 98-146: check cancellation,
apply `SelectByName`, run `Init`, apply `Select`, classify by mode (counting
files/bytes, recursing over name-sorted children for directories, counting
others), then call `Result`. Returns the threaded stats (inside the state)
and the Go error result. -/
def scan (s : Scanner) (ca : Option Nat) (st : ScanState) (target : LazyFileMetadata) :
    ScanState × Option GoErr :=
  let c := st.checks
  let st := { st with checks := c + 1 }
  if ctxErr ca c then (st, none)
  else if !(s.SelectByName target.name) then (st, none)
  else
    let st := { st with trace := st.trace ++ [Event.initCall target.path] }
    match target.initRes with
    | some err =>
        ({ st with trace := st.trace ++ [Event.errCall target.path err] },
          s.Error target.path err)
    | none =>
        if !(s.Select target) then (st, none)
        else
          let emit : ScanState → ScanState × Option GoErr := fun st2 =>
            ({ st2 with trace := st2.trace ++ [Event.result target.path st2.stats] }, none)
          match target.mode with
          | Mode.regular =>
              emit { st with stats :=
                { st.stats with
                    Files := (st.stats.Files + 1) % W64
                    Bytes := (st.stats.Bytes + target.size) % W64 } }
          | Mode.dir =>
              match target.childRes with
              | some err =>
                  ({ st with trace := st.trace ++ [Event.errCall target.path err] },
                    s.Error target.path err)
              | none =>
                  match scanChildren s ca st (sortByName target.children) with
                  | (st3, some err) => (st3, some err)
                  | (st3, none) =>
                      emit { st3 with stats :=
                        { st3.stats with Dirs := (st3.stats.Dirs + 1) % W64 } }
          | Mode.other =>
              emit { st with stats :=
                { st.stats with Others := (st.stats.Others + 1) % W64 } }
termination_by sizeOf target
decreasing_by
  have hins : ∀ (x : LazyFileMetadata) (l : List LazyFileMetadata),
      sizeOf (insertByName x l) = 1 + sizeOf x + sizeOf l := by
    intro x l
    induction l with
    | nil => simp [insertByName]
    | cons y ys ih =>
        by_cases h : strLt y.name x.name = true
        · simp [insertByName, h, ih]; try omega
        · simp [insertByName, h]; try omega
  have hsort : ∀ l : List LazyFileMetadata, sizeOf (sortByName l) = sizeOf l := by
    intro l
    induction l with
    | nil => rfl
    | cons c cs ih => simp [sortByName, hins, ih]
  cases target with
  | mk n p i m sz cr cs =>
      simp only [LazyFileMetadata.children, hsort]
      simp [LazyFileMetadata.mk.sizeOf_spec]
      try omega

/-- The `for _, child := range children` loop body of `scan`: scan each
child in turn, threading the state, aborting on the first non-nil error. -/
def scanChildren (s : Scanner) (ca : Option Nat) (st : ScanState) :
    List LazyFileMetadata → ScanState × Option GoErr
  | [] => (st, none)
  | child :: rest =>
      match scan s ca st child with
      | (st1, some err) => (st1, some err)
      | (st1, none) => scanChildren s ca st1 rest
termination_by l => sizeOf l
decreasing_by
  all_goals simp [List.cons.sizeOf_spec]
  all_goals try omega

end

/-- Modelled from the spec: the logical `Tree` type built by the external
tree-builder (`newTree`, not part of the scanned sources) is "a recursive
structure with two variants": a *leaf* wrapping one target's lazy metadata,
which "must support producing its fully resolved absolute path form"
(`FileMetadata.Abs()`, whose outcome — the resolved metadata or an error —
is stored in the leaf), and a *node* mapping child names to child trees
(keys unique). -/
inductive Tree where
  | leaf (fileMetadata : Except GoErr LazyFileMetadata) : Tree
  | node (nodes : List (String × Tree)) : Tree

/-- `tree.Nodes[name]`: look a child tree up by name in a node's mapping. -/
def lookupTree : List (String × Tree) → String → Option Tree
  | [], _ => none
  | (k, t) :: rest, n => if k = n then some t else lookupTree rest n

/-- Insert a string into a sorted list of strings, keeping it sorted. -/
def insertString (x : String) : List String → List String
  | [] => [x]
  | y :: ys => if strLt y x then y :: insertString x ys else x :: y :: ys

/-- Sort a list of strings lexicographically (insertion sort). -/
def sortStrings : List String → List String
  | [] => []
  | c :: cs => insertString c (sortStrings cs)

/-- Modelled from the spec: `tree.NodeNames()` (defined in the external tree
code) — "traversal order over a Node's children must be fully deterministic
(lexicographic by name) regardless of map/iteration order": the node's keys,
sorted. -/
def nodeNames (nodes : List (String × Tree)) : List String :=
  sortStrings (nodes.map Prod.fst)

mutual

/-- `(*Scanner).scanTree` from scanner.go lines 40-70: at a leaf, resolve
the absolute target (`Abs`) and `scan` it, mapping any error to
`(ScanStats{}, err)`; at a node, loop over the deterministically ordered
child names, recursing and checking `ctx.Err()` after every child. -/
def scanTree (s : Scanner) (ca : Option Nat) (st : ScanState) (tree : Tree) :
    ScanState × Option GoErr :=
  match tree with
  | Tree.leaf fm =>
      match fm with
      | Except.error err => ({ st with stats := {} }, some err)
      | Except.ok abstarget =>
          match scan s ca st abstarget with
          | (st1, some err) => ({ st1 with stats := {} }, some err)
          | (st1, none) => (st1, none)
  | Tree.node nodes => scanTreeNodes s ca st nodes (nodeNames nodes)
termination_by (sizeOf tree, 0)
decreasing_by
  apply Prod.Lex.left
  simp
  try omega

/-- The `for _, name := range tree.NodeNames()` loop of `scanTree`: recurse
into `tree.Nodes[name]` for each name, returning `(ScanStats{}, err)` on
error and stopping early (with the stats so far and a nil error) when
`ctx.Err()` reports cancellation after a child. -/
def scanTreeNodes (s : Scanner) (ca : Option Nat) (st : ScanState)
    (nodes : List (String × Tree)) : List String → ScanState × Option GoErr
  | [] => (st, none)
  | n :: rest =>
      match hl : lookupTree nodes n with
      | none => scanTreeNodes s ca st nodes rest
      | some t =>
          match scanTree s ca st t with
          | (st1, some err) => ({ st1 with stats := {} }, some err)
          | (st1, none) =>
              let c := st1.checks
              let st2 := { st1 with checks := c + 1 }
              if ctxErr ca c then (st2, none) else scanTreeNodes s ca st2 nodes rest
termination_by names => (sizeOf nodes, names.length)
decreasing_by
  all_goals first
    | (apply Prod.Lex.right; simp)
    | (apply Prod.Lex.left
       have hlook : ∀ (ns : List (String × Tree)) (nm : String) (t0 : Tree),
           lookupTree ns nm = some t0 → sizeOf t0 < sizeOf ns := by
         intro ns
         induction ns with
         | nil => intro nm t0 h; simp [lookupTree] at h
         | cons p rest ih =>
             intro nm t0 h
             cases p with
             | mk k tk =>
                 by_cases hk : k = nm
                 · simp [lookupTree, hk] at h
                   subst h
                   simp
                   try omega
                 · simp [lookupTree, hk] at h
                   have := ih nm t0 h
                   simp
                   omega
       have h2 := hlook _ _ _ hl
       omega)

end

/-- `(*Scanner).Scan` from scanner.go lines 72-96, after the external
target-resolution and tree-building steps (`resolveRelativeTargets` /
`newTree`, outside the scanned sources) have produced the logical tree:
run `scanTree` on zero stats, return any error as-is, and otherwise invoke
`Result` once more with the empty-path sentinel and the final stats.
The observable outcome is the event trace plus the returned Go error. -/
def Scan (s : Scanner) (ca : Option Nat) (tree : Tree) : List Event × Option GoErr :=
  match scanTree s ca { checks := 0, stats := {}, trace := [] } tree with
  | (st, some err) => (st.trace, some err)
  | (st, none) => (st.trace ++ [Event.result "" st.stats], none)

/-! Structural (fuel-indexed) mirrors of the recursive functions.  The
recursion of `scan`/`scanTree` is well-founded but not structural (it
recurses through a sorted copy of the children), so those definitions do
not reduce inside the kernel; the `...F` twins below recurse structurally
on an explicit fuel bound and are proved (in `scanF_eq`, `scanTreeF_eq`,
`ScanF_eq`) to coincide with them whenever the fuel is at least `sizeOf`
the scanned value.  Every concrete evaluation in this development goes
through the twins, so it is checked by the kernel via `decide`/`rfl`. -/

/-- The `for _, child := range children` loop of `scan`, abstracted over
the function applied to each child: thread the state, abort on the first
non-nil error. -/
def runChildren (f : ScanState → LazyFileMetadata → ScanState × Option GoErr) :
    ScanState → List LazyFileMetadata → ScanState × Option GoErr
  | st, [] => (st, none)
  | st, child :: rest =>
      match f st child with
      | (st1, some err) => (st1, some err)
      | (st1, none) => runChildren f st1 rest

/-- Fuel-indexed mirror of `scan` (see `scanF_eq`). -/
def scanF (s : Scanner) (ca : Option Nat) :
    Nat → ScanState → LazyFileMetadata → ScanState × Option GoErr
  | 0, st, _ => (st, none)
  | fuel + 1, st, target =>
    let c := st.checks
    let st := { st with checks := c + 1 }
    if ctxErr ca c then (st, none)
    else if !(s.SelectByName target.name) then (st, none)
    else
      let st := { st with trace := st.trace ++ [Event.initCall target.path] }
      match target.initRes with
      | some err =>
          ({ st with trace := st.trace ++ [Event.errCall target.path err] },
            s.Error target.path err)
      | none =>
          if !(s.Select target) then (st, none)
          else
            let emit : ScanState → ScanState × Option GoErr := fun st2 =>
              ({ st2 with trace := st2.trace ++ [Event.result target.path st2.stats] }, none)
            match target.mode with
            | Mode.regular =>
                emit { st with stats :=
                  { st.stats with
                      Files := (st.stats.Files + 1) % W64
                      Bytes := (st.stats.Bytes + target.size) % W64 } }
            | Mode.dir =>
                match target.childRes with
                | some err =>
                    ({ st with trace := st.trace ++ [Event.errCall target.path err] },
                      s.Error target.path err)
                | none =>
                    match runChildren (fun st2 c2 => scanF s ca fuel st2 c2) st
                        (sortByName target.children) with
                    | (st3, some err) => (st3, some err)
                    | (st3, none) =>
                        emit { st3 with stats :=
                          { st3.stats with Dirs := (st3.stats.Dirs + 1) % W64 } }
            | Mode.other =>
                emit { st with stats :=
                  { st.stats with Others := (st.stats.Others + 1) % W64 } }

/-- The `for _, name := range tree.NodeNames()` loop of `scanTree`,
abstracted over the function applied to each named subtree. -/
def runNames (f : ScanState → Tree → ScanState × Option GoErr) (ca : Option Nat)
    (nodes : List (String × Tree)) :
    ScanState → List String → ScanState × Option GoErr
  | st, [] => (st, none)
  | st, n :: rest =>
      match lookupTree nodes n with
      | none => runNames f ca nodes st rest
      | some t =>
          match f st t with
          | (st1, some err) => ({ st1 with stats := {} }, some err)
          | (st1, none) =>
              let c := st1.checks
              let st2 := { st1 with checks := c + 1 }
              if ctxErr ca c then (st2, none)
              else runNames f ca nodes st2 rest

/-- Fuel-indexed mirror of `scanTree` (see `scanTreeF_eq`). -/
def scanTreeF (s : Scanner) (ca : Option Nat) :
    Nat → ScanState → Tree → ScanState × Option GoErr
  | fuel, st, Tree.leaf fm =>
      match fm with
      | Except.error err => ({ st with stats := {} }, some err)
      | Except.ok abstarget =>
          match scanF s ca fuel st abstarget with
          | (st1, some err) => ({ st1 with stats := {} }, some err)
          | (st1, none) => (st1, none)
  | 0, st, Tree.node _ => (st, none)
  | fuel + 1, st, Tree.node nodes =>
      runNames (fun st2 t2 => scanTreeF s ca fuel st2 t2) ca nodes st (nodeNames nodes)

/-- Fuel-indexed mirror of `Scan` (see `ScanF_eq`). -/
def ScanF (s : Scanner) (ca : Option Nat) (fuel : Nat) (tree : Tree) :
    List Event × Option GoErr :=
  match scanTreeF s ca fuel { checks := 0, stats := {}, trace := [] } tree with
  | (st, some err) => (st.trace, some err)
  | (st, none) => (st.trace ++ [Event.result "" st.stats], none)

/-! ### Concrete scenario data (used by witnesses and counterexamples) -/

/-- A scanner whose name filter rejects exactly the name "x". -/
def sRejX : Scanner :=
  { SelectByName := fun n => !(n == "x")
    Select := fun _ => true
    Error := fun _ err => some err }

/-- A scanner whose `Error` policy always returns nil (treat as skip). -/
def sNilErr : Scanner :=
  { SelectByName := fun _ => true
    Select := fun _ => true
    Error := fun _ _ => none }

/-- A child of the excluded directory, with a failing stat. -/
def xChild : LazyFileMetadata :=
  LazyFileMetadata.mk "y" "/x/y" (some "unreadable") Mode.regular 0 none []

/-- A directory named "x" (excluded by `sRejX`) with one child. -/
def xDir : LazyFileMetadata := LazyFileMetadata.mk "x" "/x" none Mode.dir 0 none [xChild]

/-- Scenario B/C: a readable 5-byte file. -/
def okA : LazyFileMetadata := LazyFileMetadata.mk "a" "/t/a" none Mode.regular 5 none []

/-- Scenario B/C: the unreadable middle child (its stat fails). -/
def badB : LazyFileMetadata :=
  LazyFileMetadata.mk "b" "/t/b" (some "stat failed") Mode.regular 7 none []

/-- Scenario B/C: a readable 9-byte file. -/
def okC : LazyFileMetadata := LazyFileMetadata.mk "c" "/t/c" none Mode.regular 9 none []

/-- Scenario B/C: target directory with children a (ok), b (stat fails), c (ok). -/
def tDir : LazyFileMetadata :=
  LazyFileMetadata.mk "t" "/t" none Mode.dir 0 none [okC, badB, okA]

/-- Scenario B/C as a one-leaf logical tree. -/
def trT : Tree := Tree.leaf (Except.ok tDir)

/-- Scenario D: the file named "B". -/
def fileB : LazyFileMetadata := LazyFileMetadata.mk "B" "/d/B" none Mode.regular 1 none []

/-- Scenario D: the file named "a". -/
def fileA : LazyFileMetadata := LazyFileMetadata.mk "a" "/d/a" none Mode.regular 2 none []

/-- Scenario D: the file named "c". -/
def fileC : LazyFileMetadata := LazyFileMetadata.mk "c" "/d/c" none Mode.regular 3 none []

/-- Scenario D: a directory with children named "B", "a", "c", enumerated
by the filesystem in the order a, B, c. -/
def dirBAC : LazyFileMetadata :=
  LazyFileMetadata.mk "d" "/d" none Mode.dir 0 none [fileA, fileB, fileC]

/-- Scenario D as a one-leaf logical tree. -/
def trBAC : Tree := Tree.leaf (Except.ok dirBAC)

/-- The same snapshot as `trBAC` with a different enumeration order. -/
def trCAB : Tree :=
  Tree.leaf (Except.ok (LazyFileMetadata.mk "d" "/d" none Mode.dir 0 none
    [fileC, fileA, fileB]))

/-- A directory of three readable files (for the cancellation scenarios). -/
def gDir : LazyFileMetadata :=
  LazyFileMetadata.mk "g" "/g" none Mode.dir 0 none
    [LazyFileMetadata.mk "g1" "/g/g1" none Mode.regular 10 none [],
     LazyFileMetadata.mk "g2" "/g/g2" none Mode.regular 20 none [],
     LazyFileMetadata.mk "g3" "/g/g3" none Mode.regular 30 none []]

/-- `gDir` as a one-leaf logical tree. -/
def trG : Tree := Tree.leaf (Except.ok gDir)

/-- Overflow scenario: a directory of three files of maximal `int64` size
(2^63 - 1 bytes each); their total exceeds 2^64, so `Bytes` wraps. -/
def hugeDir : LazyFileMetadata :=
  LazyFileMetadata.mk "h" "/h" none Mode.dir 0 none
    [LazyFileMetadata.mk "h1" "/h/h1" none Mode.regular (2 ^ 63 - 1) none [],
     LazyFileMetadata.mk "h2" "/h/h2" none Mode.regular (2 ^ 63 - 1) none [],
     LazyFileMetadata.mk "h3" "/h/h3" none Mode.regular (2 ^ 63 - 1) none []]

/-- `hugeDir` as a one-leaf logical tree. -/
def trHuge : Tree := Tree.leaf (Except.ok hugeDir)

/-! ### Observables and auxiliary notions used by the claims -/

/-- The `Result` callback invocations recorded in a trace, in order:
`(item, stats)` pairs. -/
def resultEvents : List Event → List (String × ScanStats)
  | [] => []
  | Event.result item stats :: rest => (item, stats) :: resultEvents rest
  | _ :: rest => resultEvents rest

/-- The items (paths) passed to `Result`, in call order. -/
def resultItems (l : List Event) : List String := (resultEvents l).map Prod.fst

/-- The stats values passed to `Result`, in call order. -/
def resStats (l : List Event) : List ScanStats := (resultEvents l).map Prod.snd

/-- Componentwise order on `ScanStats` (every counter non-decreasing). -/
def statsLe (a b : ScanStats) : Prop :=
  a.Files ≤ b.Files ∧ a.Dirs ≤ b.Dirs ∧ a.Others ≤ b.Others ∧ a.Bytes ≤ b.Bytes

instance statsLe.dec (a b : ScanStats) : Decidable (statsLe a b) :=
  inferInstanceAs (Decidable (_ ∧ _ ∧ _ ∧ _))

/-- The monotonicity invariant carried through a scan: the stats delivered
to `Result` so far form a `statsLe`-chain whose last element is dominated
by the currently threaded stats. -/
def goodSt (st : ScanState) : Prop :=
  List.Chain' statsLe (resStats st.trace ++ [st.stats])

mutual

/-- Canonical form of an entry: children recursively canonicalised and put
in name-sorted order.  Two entries denote the same filesystem snapshot up
to directory enumeration order exactly when their canonical forms agree. -/
def canon : LazyFileMetadata → LazyFileMetadata
  | LazyFileMetadata.mk n p ir m sz cr cs =>
      LazyFileMetadata.mk n p ir m sz cr (sortByName (canonList cs))

/-- `canon` mapped over a list. -/
def canonList : List LazyFileMetadata → List LazyFileMetadata
  | [] => []
  | c :: cs => canon c :: canonList cs

end

mutual

/-- Canonical form of a logical tree: canonicalise the entry wrapped by
every resolved leaf (node structure is built deterministically by the
external tree-builder and left as-is). -/
def canonTree : Tree → Tree
  | Tree.leaf (Except.error e) => Tree.leaf (Except.error e)
  | Tree.leaf (Except.ok fm) => Tree.leaf (Except.ok (canon fm))
  | Tree.node ns => Tree.node (canonNodes ns)

/-- `canonTree` mapped over a node's children. -/
def canonNodes : List (String × Tree) → List (String × Tree)
  | [] => []
  | (k, t) :: rest => (k, canonTree t) :: canonNodes rest

end

mutual

/-- A logical tree is well formed when every leaf's absolute-path
resolution succeeded — the contract the external tree-builder guarantees
("leaves map one-to-one to resolvable absolute paths"). -/
def wellFormedTree : Tree → Bool
  | Tree.leaf (Except.error _) => false
  | Tree.leaf (Except.ok _) => true
  | Tree.node ns => wellFormedNodes ns

/-- `wellFormedTree` over a node's children. -/
def wellFormedNodes : List (String × Tree) → Bool
  | [] => true
  | (_, t) :: rest => wellFormedTree t && wellFormedNodes rest

end

mutual

/-- Weight of an entry: an upper bound on every counter increment its
subtree can cause (1 for the entry itself plus its size plus the weight of
all children). -/
def weight : LazyFileMetadata → Nat
  | LazyFileMetadata.mk _ _ _ _ sz _ cs => 1 + sz + weightList cs

/-- Total weight of a list of entries. -/
def weightList : List LazyFileMetadata → Nat
  | [] => 0
  | c :: cs => weight c + weightList cs

end

mutual

/-- Weight of a logical tree: total weight of the entries at its leaves. -/
def treeWeight : Tree → Nat
  | Tree.leaf (Except.error _) => 0
  | Tree.leaf (Except.ok fm) => weight fm
  | Tree.node ns => nodesWeight ns

/-- Total weight of a node list. -/
def nodesWeight : List (String × Tree) → Nat
  | [] => 0
  | (_, t) :: rest => treeWeight t + nodesWeight rest

end

/-- No string occurs twice in the list. -/
def strNodup : List String → Bool
  | [] => true
  | k :: rest => !rest.contains k && strNodup rest

mutual

/-- Every node of the tree has pairwise-distinct child names — the "keys
unique" invariant of the logical tree (a Go map cannot hold duplicates). -/
def treeKeysNodup : Tree → Bool
  | Tree.leaf _ => true
  | Tree.node ns => strNodup (ns.map Prod.fst) && nodesKeysNodup ns

/-- `treeKeysNodup` over a node's children. -/
def nodesKeysNodup : List (String × Tree) → Bool
  | [] => true
  | (_, t) :: rest => treeKeysNodup t && nodesKeysNodup rest

end

/-! ### Basic lemmas -/

/-- `charListLt` decides the lexicographic order on `List Char`. -/
theorem charListLt_iff (xs ys : List Char) : charListLt xs ys = true ↔ xs < ys := by
  induction xs generalizing ys with
  | nil =>
      cases ys with
      | nil =>
          simp only [charListLt, Bool.false_eq_true, false_iff]
          exact fun h => nomatch h
      | cons y ys2 =>
          simp only [charListLt, true_iff]
          exact List.Lex.nil
  | cons x xs2 ih =>
      cases ys with
      | nil =>
          simp only [charListLt, Bool.false_eq_true, false_iff]
          exact fun h => nomatch h
      | cons y ys2 =>
          simp only [charListLt]
          by_cases h1 : x < y
          · simp only [h1, if_true, true_iff]
            exact List.Lex.rel h1
          · by_cases h2 : y < x
            · simp only [h1, h2, if_false, if_true, Bool.false_eq_true, false_iff]
              intro h
              cases h with
              | cons htl => exact absurd h2 (lt_irrefl x)
              | rel hr => exact h1 hr
            · have hxy : x = y := le_antisymm (not_lt.mp h2) (not_lt.mp h1)
              subst hxy
              simp only [h1, h2, if_false, ih]
              constructor
              · intro h3
                exact List.Lex.cons h3
              · intro h3
                cases h3 with
                | cons htl => exact htl
                | rel hr => exact absurd hr (lt_irrefl x)

/-- `strLt` agrees with Lean's order on `String` (which, for UTF-8 data,
coincides with Go's byte-wise `<`). -/
theorem strLt_iff (a b : String) : strLt a b = true ↔ a < b := by
  rw [String.lt_iff_toList_lt]
  exact charListLt_iff a.toList b.toList

/-- Membership through `insertByName`. -/
theorem mem_insertByName {a x : LazyFileMetadata} {l : List LazyFileMetadata}
    (h : a ∈ insertByName x l) : a = x ∨ a ∈ l := by
  induction l with
  | nil => simpa [insertByName] using h
  | cons y ys ih =>
      by_cases hc : strLt y.name x.name = true
      · simp [insertByName, hc] at h
        rcases h with h | h
        · exact Or.inr (by simp [h])
        · rcases ih h with h2 | h2
          · exact Or.inl h2
          · exact Or.inr (by simp [h2])
      · simp [insertByName, hc] at h
        rcases h with h | h | h
        · exact Or.inl h
        · exact Or.inr (by simp [h])
        · exact Or.inr (by simp [h])

/-- Membership through `sortByName`. -/
theorem mem_sortByName {a : LazyFileMetadata} {l : List LazyFileMetadata}
    (h : a ∈ sortByName l) : a ∈ l := by
  induction l with
  | nil => simpa [sortByName] using h
  | cons c cs ih =>
      rcases @mem_insertByName a c (sortByName cs) (by simpa [sortByName] using h) with
        h2 | h2
      · simp [h2]
      · simp [ih h2]

/-- An element of a `children` list is smaller than the whole entry. -/
theorem sizeOf_children_lt {c : LazyFileMetadata} {n p : String} {ir : Option GoErr}
    {m : Mode} {sz : Nat} {cr : Option GoErr} {cs : List LazyFileMetadata}
    (h : c ∈ cs) : sizeOf c < sizeOf (LazyFileMetadata.mk n p ir m sz cr cs) := by
  have := List.sizeOf_lt_of_mem h
  simp [LazyFileMetadata.mk.sizeOf_spec]
  omega

/-- A successful lookup returns a member-sized subtree. -/
theorem sizeOf_lookupTree_lt {nodes : List (String × Tree)} {n : String} {t : Tree}
    (h : lookupTree nodes n = some t) : sizeOf t < sizeOf nodes := by
  induction nodes with
  | nil => simp [lookupTree] at h
  | cons p rest ih =>
      cases p with
      | mk k tk =>
          by_cases hk : k = n
          · simp [lookupTree, hk] at h
            subst h
            simp
            try omega
          · simp [lookupTree, hk] at h
            have := ih h
            simp
            omega

/-! ### Branch equations for `scan` -/

/-- `scan` at a point where `ctx.Err()` reports cancellation: the current
stats are returned unchanged, with no error, no event, and no I/O. -/
theorem scan_cancelled (s : Scanner) (ca : Option Nat) (st : ScanState)
    (t : LazyFileMetadata) (h : ctxErr ca st.checks = true) :
    scan s ca st t = ({ st with checks := st.checks + 1 }, none) := by
  rw [scan.eq_def]
  simp [h]

/-- `scan` on an entry rejected by `SelectByName`: skipped with no stat. -/
theorem scan_name_skip (s : Scanner) (ca : Option Nat) (st : ScanState)
    (t : LazyFileMetadata) (h1 : ctxErr ca st.checks = false)
    (h2 : s.SelectByName t.name = false) :
    scan s ca st t = ({ st with checks := st.checks + 1 }, none) := by
  rw [scan.eq_def]
  simp [h1, h2]

/-- `scan` on an entry whose `Init` (stat) fails: the `Error` policy decides
the outcome; the stats are unchanged and no `Result` call happens. -/
theorem scan_init_err (s : Scanner) (ca : Option Nat) (st : ScanState)
    (t : LazyFileMetadata) (e : GoErr) (h1 : ctxErr ca st.checks = false)
    (h2 : s.SelectByName t.name = true) (h3 : t.initRes = some e) :
    scan s ca st t =
      ({ checks := st.checks + 1, stats := st.stats,
         trace := st.trace ++ [Event.initCall t.path, Event.errCall t.path e] },
        s.Error t.path e) := by
  rw [scan.eq_def]
  simp [h1, h2, h3]

/-- `scan` on an entry rejected by `Select` after a successful stat. -/
theorem scan_select_skip (s : Scanner) (ca : Option Nat) (st : ScanState)
    (t : LazyFileMetadata) (h1 : ctxErr ca st.checks = false)
    (h2 : s.SelectByName t.name = true) (h3 : t.initRes = none)
    (h4 : s.Select t = false) :
    scan s ca st t =
      ({ checks := st.checks + 1, stats := st.stats,
         trace := st.trace ++ [Event.initCall t.path] }, none) := by
  rw [scan.eq_def]
  simp [h1, h2, h3, h4]

/-- `scan` on a selected regular file: count one file and its size, then
report the updated cumulative stats. -/
theorem scan_regular (s : Scanner) (ca : Option Nat) (st : ScanState)
    (t : LazyFileMetadata) (h1 : ctxErr ca st.checks = false)
    (h2 : s.SelectByName t.name = true) (h3 : t.initRes = none)
    (h4 : s.Select t = true) (h5 : t.mode = Mode.regular) :
    scan s ca st t =
      ({ checks := st.checks + 1,
         stats := addFile st.stats t.size,
         trace := st.trace ++ [Event.initCall t.path,
           Event.result t.path (addFile st.stats t.size)] }, none) := by
  rw [scan.eq_def]
  simp [h1, h2, h3, h4, h5, addFile]

/-- `scan` on a selected entry that is neither a file nor a directory:
count one "other", then report. -/
theorem scan_other (s : Scanner) (ca : Option Nat) (st : ScanState)
    (t : LazyFileMetadata) (h1 : ctxErr ca st.checks = false)
    (h2 : s.SelectByName t.name = true) (h3 : t.initRes = none)
    (h4 : s.Select t = true) (h5 : t.mode = Mode.other) :
    scan s ca st t =
      ({ checks := st.checks + 1,
         stats := addOther st.stats,
         trace := st.trace ++ [Event.initCall t.path,
           Event.result t.path (addOther st.stats)] }, none) := by
  rw [scan.eq_def]
  simp [h1, h2, h3, h4, h5, addOther]

/-- `scan` on a selected directory whose `Children()` listing fails: like a
failing stat, the `Error` policy decides; nothing is counted or reported. -/
theorem scan_dir_childerr (s : Scanner) (ca : Option Nat) (st : ScanState)
    (t : LazyFileMetadata) (e : GoErr) (h1 : ctxErr ca st.checks = false)
    (h2 : s.SelectByName t.name = true) (h3 : t.initRes = none)
    (h4 : s.Select t = true) (h5 : t.mode = Mode.dir) (h6 : t.childRes = some e) :
    scan s ca st t =
      ({ checks := st.checks + 1, stats := st.stats,
         trace := st.trace ++ [Event.initCall t.path, Event.errCall t.path e] },
        s.Error t.path e) := by
  rw [scan.eq_def]
  simp [h1, h2, h3, h4, h5, h6]

/-- `scan` on a selected directory whose children scan succeeds: the
directory counter is incremented only after the children have been folded
in, and the directory's `Result` call carries those cumulative stats. -/
theorem scan_dir_ok (s : Scanner) (ca : Option Nat) (st st3 : ScanState)
    (t : LazyFileMetadata) (h1 : ctxErr ca st.checks = false)
    (h2 : s.SelectByName t.name = true) (h3 : t.initRes = none)
    (h4 : s.Select t = true) (h5 : t.mode = Mode.dir) (h6 : t.childRes = none)
    (h7 : scanChildren s ca
        { checks := st.checks + 1, stats := st.stats,
          trace := st.trace ++ [Event.initCall t.path] } (sortByName t.children) =
      (st3, none)) :
    scan s ca st t =
      ({ checks := st3.checks,
         stats := addDir st3.stats,
         trace := st3.trace ++ [Event.result t.path (addDir st3.stats)] }, none) := by
  rw [scan.eq_def]
  simp [h1, h2, h3, h4, h5, h6, h7, addDir]

/-- `scan` on a selected directory where scanning the children aborts: the
error is returned as-is and the directory is neither counted nor reported. -/
theorem scan_dir_err (s : Scanner) (ca : Option Nat) (st st3 : ScanState)
    (t : LazyFileMetadata) (e : GoErr) (h1 : ctxErr ca st.checks = false)
    (h2 : s.SelectByName t.name = true) (h3 : t.initRes = none)
    (h4 : s.Select t = true) (h5 : t.mode = Mode.dir) (h6 : t.childRes = none)
    (h7 : scanChildren s ca
        { checks := st.checks + 1, stats := st.stats,
          trace := st.trace ++ [Event.initCall t.path] } (sortByName t.children) =
      (st3, some e)) :
    scan s ca st t = (st3, some e) := by
  rw [scan.eq_def]
  simp [h1, h2, h3, h4, h5, h6, h7]

/-- The children loop on an empty list. -/
theorem scanChildren_nil (s : Scanner) (ca : Option Nat) (st : ScanState) :
    scanChildren s ca st [] = (st, none) := by
  rw [scanChildren.eq_def]

/-- The children loop steps over a child whose scan succeeded. -/
theorem scanChildren_cons_ok (s : Scanner) (ca : Option Nat) (st st1 : ScanState)
    (c : LazyFileMetadata) (rest : List LazyFileMetadata)
    (h : scan s ca st c = (st1, none)) :
    scanChildren s ca st (c :: rest) = scanChildren s ca st1 rest := by
  rw [scanChildren.eq_def]
  simp [h]

/-- The children loop aborts on the first child whose scan errors. -/
theorem scanChildren_cons_err (s : Scanner) (ca : Option Nat) (st st1 : ScanState)
    (c : LazyFileMetadata) (rest : List LazyFileMetadata) (e : GoErr)
    (h : scan s ca st c = (st1, some e)) :
    scanChildren s ca st (c :: rest) = (st1, some e) := by
  rw [scanChildren.eq_def]
  simp [h]

/-! ### Branch equations for `scanTree` -/

/-- `scanTree` at a leaf whose `Abs()` resolution failed: the error is
returned directly (the `Error` policy is not involved) with zero stats. -/
theorem scanTree_leaf_err (s : Scanner) (ca : Option Nat) (st : ScanState) (e : GoErr) :
    scanTree s ca st (Tree.leaf (Except.error e)) = ({ st with stats := {} }, some e) := by
  rw [scanTree.eq_def]

/-- `scanTree` at a resolved leaf whose subtree scan errors. -/
theorem scanTree_leaf_ok_err (s : Scanner) (ca : Option Nat) (st st1 : ScanState)
    (fm : LazyFileMetadata) (e : GoErr) (h : scan s ca st fm = (st1, some e)) :
    scanTree s ca st (Tree.leaf (Except.ok fm)) = ({ st1 with stats := {} }, some e) := by
  rw [scanTree.eq_def]
  simp [h]

/-- `scanTree` at a resolved leaf whose subtree scan succeeds. -/
theorem scanTree_leaf_ok_ok (s : Scanner) (ca : Option Nat) (st st1 : ScanState)
    (fm : LazyFileMetadata) (h : scan s ca st fm = (st1, none)) :
    scanTree s ca st (Tree.leaf (Except.ok fm)) = (st1, none) := by
  rw [scanTree.eq_def]
  simp [h]

/-- `scanTree` at a node runs the name loop over the sorted names. -/
theorem scanTree_node (s : Scanner) (ca : Option Nat) (st : ScanState)
    (nodes : List (String × Tree)) :
    scanTree s ca st (Tree.node nodes) = scanTreeNodes s ca st nodes (nodeNames nodes) := by
  rw [scanTree.eq_def]

/-- The name loop on an empty list. -/
theorem scanTreeNodes_nil (s : Scanner) (ca : Option Nat) (st : ScanState)
    (nodes : List (String × Tree)) :
    scanTreeNodes s ca st nodes [] = (st, none) := by
  rw [scanTreeNodes.eq_def]

/-- The name loop skips a name that is not in the mapping. -/
theorem scanTreeNodes_cons_none (s : Scanner) (ca : Option Nat) (st : ScanState)
    (nodes : List (String × Tree)) (n : String) (rest : List String)
    (h : lookupTree nodes n = none) :
    scanTreeNodes s ca st nodes (n :: rest) = scanTreeNodes s ca st nodes rest := by
  rw [scanTreeNodes.eq_def]
  simp only []
  split
  · rfl
  · rename_i t2 hl
    rw [h] at hl
    cases hl

/-- The name loop aborts (with zero stats) when a subtree scan errors. -/
theorem scanTreeNodes_cons_err (s : Scanner) (ca : Option Nat) (st st1 : ScanState)
    (nodes : List (String × Tree)) (n : String) (rest : List String) (t : Tree) (e : GoErr)
    (h : lookupTree nodes n = some t) (h2 : scanTree s ca st t = (st1, some e)) :
    scanTreeNodes s ca st nodes (n :: rest) = ({ st1 with stats := {} }, some e) := by
  rw [scanTreeNodes.eq_def]
  simp only []
  split
  · rename_i hl
    rw [h] at hl
    cases hl
  · rename_i t2 hl
    rw [h] at hl
    injection hl with ht
    subst ht
    simp [h2]

/-- The name loop stops early, without error, when `ctx.Err()` reports
cancellation after a successfully scanned subtree. -/
theorem scanTreeNodes_cons_cancel (s : Scanner) (ca : Option Nat) (st st1 : ScanState)
    (nodes : List (String × Tree)) (n : String) (rest : List String) (t : Tree)
    (h : lookupTree nodes n = some t) (h2 : scanTree s ca st t = (st1, none))
    (h3 : ctxErr ca st1.checks = true) :
    scanTreeNodes s ca st nodes (n :: rest) = ({ st1 with checks := st1.checks + 1 }, none) := by
  rw [scanTreeNodes.eq_def]
  simp only []
  split
  · rename_i hl
    rw [h] at hl
    cases hl
  · rename_i t2 hl
    rw [h] at hl
    injection hl with ht
    subst ht
    simp [h2, h3]

/-- The name loop continues with the next name after a successfully scanned
subtree when cancellation is not in effect. -/
theorem scanTreeNodes_cons_step (s : Scanner) (ca : Option Nat) (st st1 : ScanState)
    (nodes : List (String × Tree)) (n : String) (rest : List String) (t : Tree)
    (h : lookupTree nodes n = some t) (h2 : scanTree s ca st t = (st1, none))
    (h3 : ctxErr ca st1.checks = false) :
    scanTreeNodes s ca st nodes (n :: rest) =
      scanTreeNodes s ca { st1 with checks := st1.checks + 1 } nodes rest := by
  rw [scanTreeNodes.eq_def]
  simp only []
  split
  · rename_i hl
    rw [h] at hl
    cases hl
  · rename_i t2 hl
    rw [h] at hl
    injection hl with ht
    subst ht
    simp [h2, h3]

/-! ### The fuel twins agree with the Go functions -/

/-- Every entry has positive size. -/
theorem sizeOf_fm_pos (t : LazyFileMetadata) : 1 ≤ sizeOf t := by
  cases t with
  | mk n p ir m sz cr cs =>
      simp [LazyFileMetadata.mk.sizeOf_spec]
      try omega

/-- Every tree has positive size. -/
theorem sizeOf_tree_pos (t : Tree) : 1 ≤ sizeOf t := by
  cases t with
  | leaf fm => simp; try omega
  | node ns => simp; try omega

/-- The children loop twin agrees with `scanChildren` whenever the twin
agrees pointwise on the list elements. -/
theorem runChildren_eq (s : Scanner) (ca : Option Nat) (fuel : Nat)
    (l : List LazyFileMetadata)
    (hp : ∀ c ∈ l, ∀ st2, scanF s ca fuel st2 c = scan s ca st2 c) :
    ∀ st, runChildren (fun a b => scanF s ca fuel a b) st l = scanChildren s ca st l := by
  induction l with
  | nil =>
      intro st
      rw [scanChildren_nil]
      rfl
  | cons c rest ihl =>
      intro st
      have hc := hp c (by simp) st
      simp only [runChildren, hc]
      cases hscan : scan s ca st c with
      | mk st1 r =>
          cases r with
          | none =>
              rw [scanChildren_cons_ok s ca st st1 c rest hscan]
              exact ihl (fun c2 hc2 st2 => hp c2 (by simp [hc2]) st2) st1
          | some e =>
              rw [scanChildren_cons_err s ca st st1 c rest e hscan]

/-- The fuel twin `scanF` computes `scan` whenever the fuel is at least the
size of the entry. -/
theorem scanF_eq (s : Scanner) (ca : Option Nat) :
    ∀ (fuel : Nat) (t : LazyFileMetadata) (st : ScanState), sizeOf t ≤ fuel →
      scanF s ca fuel st t = scan s ca st t := by
  intro fuel
  induction fuel with
  | zero =>
      intro t st h
      exact absurd h (by have := sizeOf_fm_pos t; omega)
  | succ fuel ih =>
      intro t st h
      have hrun : ∀ st2,
          runChildren (fun a b => scanF s ca fuel a b) st2 (sortByName t.children) =
            scanChildren s ca st2 (sortByName t.children) := by
        intro st2
        apply runChildren_eq
        intro c hc st3
        apply ih
        have hmem := mem_sortByName hc
        cases t with
        | mk n p ir m sz cr cs =>
            simp only [LazyFileMetadata.children] at hmem
            have := @sizeOf_children_lt _ n p ir m sz cr _ hmem
            omega
      rw [scan.eq_def]
      simp only [scanF]
      simp only [hrun]

/-- The name loop twin agrees with `scanTreeNodes` whenever the twin agrees
pointwise on every subtree the loop can look up. -/
theorem runNames_eq (s : Scanner) (ca : Option Nat) (fuel : Nat)
    (nodes : List (String × Tree))
    (hp : ∀ nm t0, lookupTree nodes nm = some t0 →
      ∀ st2, scanTreeF s ca fuel st2 t0 = scanTree s ca st2 t0) :
    ∀ (names : List String) (st),
      runNames (fun a b => scanTreeF s ca fuel a b) ca nodes st names =
        scanTreeNodes s ca st nodes names := by
  intro names
  induction names with
  | nil =>
      intro st
      rw [scanTreeNodes_nil]
      rfl
  | cons n rest ihn =>
      intro st
      cases hl : lookupTree nodes n with
      | none =>
          rw [scanTreeNodes_cons_none s ca st nodes n rest hl]
          simp only [runNames, hl]
          exact ihn st
      | some t =>
          have ht := hp n t hl st
          simp only [runNames, hl, ht]
          cases hscan : scanTree s ca st t with
          | mk st1 r =>
              cases r with
              | none =>
                  by_cases hctx : ctxErr ca st1.checks = true
                  · rw [scanTreeNodes_cons_cancel s ca st st1 nodes n rest t hl hscan hctx]
                    simp [hctx]
                  · rw [scanTreeNodes_cons_step s ca st st1 nodes n rest t hl hscan
                      (by simpa using hctx)]
                    simp only [Bool.not_eq_true] at hctx
                    simp [hctx]
                    exact ihn _
              | some e =>
                  rw [scanTreeNodes_cons_err s ca st st1 nodes n rest t e hl hscan]

/-- The fuel twin `scanTreeF` computes `scanTree` whenever the fuel is at
least the size of the tree. -/
theorem scanTreeF_eq (s : Scanner) (ca : Option Nat) :
    ∀ (fuel : Nat) (tr : Tree) (st : ScanState), sizeOf tr ≤ fuel →
      scanTreeF s ca fuel st tr = scanTree s ca st tr := by
  intro fuel
  induction fuel with
  | zero =>
      intro tr st h
      exact absurd h (by have := sizeOf_tree_pos tr; omega)
  | succ fuel ih =>
      intro tr st h
      cases tr with
      | leaf fm =>
          cases fm with
          | error e =>
              rw [scanTree_leaf_err]
              rfl
          | ok ab =>
              have hab : sizeOf ab ≤ fuel + 1 := by
                have : sizeOf (Tree.leaf (Except.ok ab)) = 1 + (1 + sizeOf ab) := by
                  simp
                  try omega
                omega
              have hs := scanF_eq s ca (fuel + 1) ab st hab
              simp only [scanTreeF, hs]
              cases hscan : scan s ca st ab with
              | mk st1 r =>
                  cases r with
                  | none => rw [scanTree_leaf_ok_ok s ca st st1 ab hscan]
                  | some e => rw [scanTree_leaf_ok_err s ca st st1 ab e hscan]
      | node ns =>
          have hsub : ∀ nm t0, lookupTree ns nm = some t0 →
              ∀ st2, scanTreeF s ca fuel st2 t0 = scanTree s ca st2 t0 := by
            intro nm t0 hl st2
            apply ih
            have h1 := sizeOf_lookupTree_lt hl
            have h2 : sizeOf (Tree.node ns) = 1 + sizeOf ns := by
              simp
              try omega
            omega
          rw [scanTree_node]
          simp only [scanTreeF]
          exact runNames_eq s ca fuel ns hsub (nodeNames ns) st

/-- The fuel twin `ScanF` computes `Scan` whenever the fuel is at least the
size of the tree. -/
theorem ScanF_eq (s : Scanner) (ca : Option Nat) (fuel : Nat) (tr : Tree)
    (h : sizeOf tr ≤ fuel) : ScanF s ca fuel tr = Scan s ca tr := by
  rw [ScanF, Scan, scanTreeF_eq s ca fuel tr _ h]

/-- Evaluate `scan` through its fuel twin. -/
theorem scan_eqF (s : Scanner) (ca : Option Nat) (fuel : Nat) (t : LazyFileMetadata)
    (h : sizeOf t ≤ fuel) (st : ScanState) :
    scan s ca st t = scanF s ca fuel st t :=
  (scanF_eq s ca fuel t st h).symm

/-- Evaluate `scanChildren` through the fuel twin of `scan`. -/
theorem scanChildren_eqF (s : Scanner) (ca : Option Nat) (fuel : Nat)
    (l : List LazyFileMetadata) (h : ∀ c ∈ l, sizeOf c ≤ fuel) (st : ScanState) :
    scanChildren s ca st l = runChildren (fun a b => scanF s ca fuel a b) st l :=
  (runChildren_eq s ca fuel l (fun c hc st2 => scanF_eq s ca fuel c st2 (h c hc)) st).symm

/-- Evaluate `scanTree` through its fuel twin. -/
theorem scanTree_eqF (s : Scanner) (ca : Option Nat) (fuel : Nat) (tr : Tree)
    (h : sizeOf tr ≤ fuel) (st : ScanState) :
    scanTree s ca st tr = scanTreeF s ca fuel st tr :=
  (scanTreeF_eq s ca fuel tr st h).symm

/-! ### Induction principles -/

/-- Induction on an entry through its (nested) children lists. -/
theorem inductOnFm {P : LazyFileMetadata → Prop}
    (h : ∀ n p ir m sz cr cs, (∀ c ∈ cs, P c) → P (LazyFileMetadata.mk n p ir m sz cr cs)) :
    ∀ t, P t := by
  have H : ∀ (k : Nat) (t : LazyFileMetadata), sizeOf t ≤ k → P t := by
    intro k
    induction k with
    | zero =>
        intro t ht
        exact absurd ht (by have := sizeOf_fm_pos t; omega)
    | succ k ih =>
        intro t ht
        cases t with
        | mk n p ir m sz cr cs =>
            apply h
            intro c hc
            apply ih
            have := @sizeOf_children_lt _ n p ir m sz cr _ hc
            omega
  exact fun t => H (sizeOf t) t le_rfl

/-- Induction on a logical tree through the subtrees its node loop can
look up. -/
theorem inductOnTree {P : Tree → Prop}
    (hleaf : ∀ fm, P (Tree.leaf fm))
    (hnode : ∀ ns, (∀ nm t, lookupTree ns nm = some t → P t) → P (Tree.node ns)) :
    ∀ t, P t := by
  have H : ∀ (k : Nat) (t : Tree), sizeOf t ≤ k → P t := by
    intro k
    induction k with
    | zero =>
        intro t ht
        exact absurd ht (by have := sizeOf_tree_pos t; omega)
    | succ k ih =>
        intro t ht
        cases t with
        | leaf fm => exact hleaf fm
        | node ns =>
            apply hnode
            intro nm t2 hl
            apply ih
            have h1 := sizeOf_lookupTree_lt hl
            have h2 : sizeOf (Tree.node ns) = 1 + sizeOf ns := by
              simp
              try omega
            omega
  exact fun t => H (sizeOf t) t le_rfl

/-! ### Top-level `Scan` outcomes -/

/-- `Scan` on a successful tree walk: the final empty-path `Result` call is
delivered with the cumulative stats, and no error is returned. -/
theorem Scan_success (s : Scanner) (ca : Option Nat) (tr : Tree) (st1 : ScanState)
    (h : scanTree s ca { checks := 0, stats := {}, trace := [] } tr = (st1, none)) :
    Scan s ca tr = (st1.trace ++ [Event.result "" st1.stats], none) := by
  unfold Scan
  rw [h]

/-- `Scan` on an aborted tree walk: the error is returned unchanged and the
trace is exactly the one accumulated up to the abort (in particular there
is no final empty-path `Result` call). -/
theorem Scan_error (s : Scanner) (ca : Option Nat) (tr : Tree) (st1 : ScanState)
    (e : GoErr)
    (h : scanTree s ca { checks := 0, stats := {}, trace := [] } tr = (st1, some e)) :
    Scan s ca tr = (st1.trace, some e) := by
  unfold Scan
  rw [h]

/-! ### Error provenance -/

/-- Any error returned by the children loop comes unchanged from some
invocation of the `Error` policy, provided that holds of each child scan. -/
theorem scanChildren_err_from (s : Scanner) (ca : Option Nat)
    (l : List LazyFileMetadata)
    (hp : ∀ c ∈ l, ∀ st st1 e, scan s ca st c = (st1, some e) →
      ∃ p e0, s.Error p e0 = some e) :
    ∀ st st1 e, scanChildren s ca st l = (st1, some e) →
      ∃ p e0, s.Error p e0 = some e := by
  induction l with
  | nil =>
      intro st st1 e h
      rw [scanChildren_nil] at h
      simp at h
  | cons c rest ih =>
      intro st st1 e h
      cases hc1 : scan s ca st c with
      | mk stc rc =>
          cases rc with
          | none =>
              rw [scanChildren_cons_ok s ca st stc c rest hc1] at h
              exact ih (fun c2 h2 => hp c2 (by simp [h2])) stc st1 e h
          | some e2 =>
              rw [scanChildren_cons_err s ca st stc c rest e2 hc1] at h
              have he : e2 = e := by
                have := congrArg Prod.snd h
                simpa using this
              subst he
              exact hp c (by simp) st stc e2 hc1

/-- Any error returned by `scan` comes unchanged from some invocation of
the `Error` policy. -/
theorem scan_err_from (s : Scanner) (ca : Option Nat) :
    ∀ (t : LazyFileMetadata) (st st1 : ScanState) (e : GoErr),
      scan s ca st t = (st1, some e) → ∃ p e0, s.Error p e0 = some e := by
  refine inductOnFm ?_
  intro n p ir m sz cr cs IH st st1 e hscan
  by_cases hctx : ctxErr ca st.checks = true
  · rw [scan_cancelled s ca st _ hctx] at hscan
    simp at hscan
  · have hctx' : ctxErr ca st.checks = false := by simpa using hctx
    by_cases hname : s.SelectByName (LazyFileMetadata.mk n p ir m sz cr cs).name = true
    case neg =>
        rw [scan_name_skip s ca st _ hctx' (by simpa using hname)] at hscan
        simp at hscan
    case pos =>
        cases ir with
        | some e0 =>
            rw [scan_init_err s ca st _ e0 hctx' hname
              (by simp [LazyFileMetadata.initRes])] at hscan
            have he : s.Error (LazyFileMetadata.mk n p (some e0) m sz cr cs).path e0 =
                some e := by
              have := congrArg Prod.snd hscan
              simpa using this
            exact ⟨_, e0, he⟩
        | none =>
            by_cases hsel : s.Select (LazyFileMetadata.mk n p none m sz cr cs) = true
            case neg =>
                rw [scan_select_skip s ca st _ hctx' hname
                  (by simp [LazyFileMetadata.initRes]) (by simpa using hsel)] at hscan
                simp at hscan
            case pos =>
                cases m with
                | regular =>
                    rw [scan_regular s ca st _ hctx' hname
                      (by simp [LazyFileMetadata.initRes]) hsel
                      (by simp [LazyFileMetadata.mode])] at hscan
                    simp at hscan
                | other =>
                    rw [scan_other s ca st _ hctx' hname
                      (by simp [LazyFileMetadata.initRes]) hsel
                      (by simp [LazyFileMetadata.mode])] at hscan
                    simp at hscan
                | dir =>
                    cases cr with
                    | some e0 =>
                        rw [scan_dir_childerr s ca st _ e0 hctx' hname
                          (by simp [LazyFileMetadata.initRes]) hsel
                          (by simp [LazyFileMetadata.mode])
                          (by simp [LazyFileMetadata.childRes])] at hscan
                        have he : s.Error
                            (LazyFileMetadata.mk n p none Mode.dir sz (some e0) cs).path e0 =
                            some e := by
                          have := congrArg Prod.snd hscan
                          simpa using this
                        exact ⟨_, e0, he⟩
                    | none =>
                        cases hsc : scanChildren s ca
                            { checks := st.checks + 1, stats := st.stats,
                              trace := st.trace ++ [Event.initCall
                                (LazyFileMetadata.mk n p none Mode.dir sz none cs).path] }
                            (sortByName
                              (LazyFileMetadata.mk n p none Mode.dir sz none cs).children)
                            with
                        | mk st3 r =>
                            cases r with
                            | none =>
                                rw [scan_dir_ok s ca st st3 _ hctx' hname
                                  (by simp [LazyFileMetadata.initRes]) hsel
                                  (by simp [LazyFileMetadata.mode])
                                  (by simp [LazyFileMetadata.childRes]) hsc] at hscan
                                simp at hscan
                            | some e2 =>
                                rw [scan_dir_err s ca st st3 _ e2 hctx' hname
                                  (by simp [LazyFileMetadata.initRes]) hsel
                                  (by simp [LazyFileMetadata.mode])
                                  (by simp [LazyFileMetadata.childRes]) hsc] at hscan
                                have he : e2 = e := by
                                  have := congrArg Prod.snd hscan
                                  simpa using this
                                subst he
                                refine scanChildren_err_from s ca _ ?_ _ _ _ hsc
                                intro c hcmem st' st1' e' hsc'
                                refine IH c ?_ st' st1' e' hsc'
                                have := mem_sortByName hcmem
                                simpa [LazyFileMetadata.children] using this

/-! ### Claim C2 -/

/-- C2: error escalation. (1) Every error returned by `scan` is exactly the
non-nil value some `Error` policy invocation returned, propagated unchanged
through every recursion level; (2) once a child's scan returns an error,
the children loop returns that exact error and state immediately — later
siblings are never scanned and contribute no `Result` calls; (3) when the
tree walk returns an error, `Scan` returns that exact error and the trace
is exactly the trace accumulated at the abort — no further `Result` call
(in particular no final empty-path one) occurs. -/
theorem C2_error_escalation (s : Scanner) (ca : Option Nat) :
    (∀ st t st1 e, scan s ca st t = (st1, some e) → ∃ p e0, s.Error p e0 = some e) ∧
    (∀ st st1 (c : LazyFileMetadata) (rest : List LazyFileMetadata) e,
      scan s ca st c = (st1, some e) →
        scanChildren s ca st (c :: rest) = (st1, some e)) ∧
    (∀ tr st1 e,
      scanTree s ca { checks := 0, stats := {}, trace := [] } tr = (st1, some e) →
        Scan s ca tr = (st1.trace, some e)) := by
  refine ⟨fun st t st1 e h => scan_err_from s ca t st st1 e h, ?_, ?_⟩
  · intro st st1 c rest e h
    exact scanChildren_cons_err s ca st st1 c rest e h
  · intro tr st1 e h
    exact Scan_error s ca tr st1 e h

/-- C2 witness (scenario B): with the default error policy, scanning a
directory whose middle child "b" has a failing stat returns that exact
error; the trace stops at the `Error` invocation for "/t/b" — sibling "c"
is never scanned and no directory or final `Result` call occurs. -/
theorem C2_witness :
    Scan NewScanner none trT =
      ([Event.initCall "/t", Event.initCall "/t/a",
        Event.result "/t/a" { Files := 1, Dirs := 0, Others := 0, Bytes := 5 },
        Event.initCall "/t/b", Event.errCall "/t/b" "stat failed"],
        some "stat failed") :=
  (C2_error_escalation NewScanner none).2.2 trT
    { checks := 3, stats := {},
      trace := [Event.initCall "/t", Event.initCall "/t/a",
        Event.result "/t/a" { Files := 1, Dirs := 0, Others := 0, Bytes := 5 },
        Event.initCall "/t/b", Event.errCall "/t/b" "stat failed"] }
    "stat failed"
    (by rw [scanTree_eqF NewScanner none 100000 trT (by decide)]; decide)

/-! ### Claim C3 -/

/-- C3: when the `Error` policy returns nil for a failing stat or child
listing, the entry is skipped silently: (1)/(2) `scan` returns the threaded
stats unchanged with a nil error and records no `Result` call for the
entry (shown for a failing `Init` and a failing `Children` respectively);
(3) the children loop then simply continues with the remaining siblings
from that unchanged state; (4) a nil-error tree walk makes `Scan` return
nil and deliver the final stats — which therefore count all other readable
entries and exclude the failed one. -/
theorem C3_onerror_nil_skips (s : Scanner) (ca : Option Nat) (st : ScanState) :
    (∀ t e, ctxErr ca st.checks = false → s.SelectByName t.name = true →
      t.initRes = some e → s.Error t.path e = none →
      scan s ca st t =
        ({ checks := st.checks + 1, stats := st.stats,
           trace := st.trace ++ [Event.initCall t.path, Event.errCall t.path e] },
          none)) ∧
    (∀ t e, ctxErr ca st.checks = false → s.SelectByName t.name = true →
      t.initRes = none → s.Select t = true → t.mode = Mode.dir →
      t.childRes = some e → s.Error t.path e = none →
      scan s ca st t =
        ({ checks := st.checks + 1, stats := st.stats,
           trace := st.trace ++ [Event.initCall t.path, Event.errCall t.path e] },
          none)) ∧
    (∀ (c : LazyFileMetadata) (rest : List LazyFileMetadata) st1,
      scan s ca st c = (st1, none) →
        scanChildren s ca st (c :: rest) = scanChildren s ca st1 rest) ∧
    (∀ tr st1, scanTree s ca { checks := 0, stats := {}, trace := [] } tr = (st1, none) →
      Scan s ca tr = (st1.trace ++ [Event.result "" st1.stats], none)) := by
  refine ⟨?_, ?_, ?_, ?_⟩
  · intro t e h1 h2 h3 h4
    rw [scan_init_err s ca st t e h1 h2 h3, h4]
  · intro t e h1 h2 h3 h4 h5 h6 h7
    rw [scan_dir_childerr s ca st t e h1 h2 h3 h4 h5 h6, h7]
  · intro c rest st1 h
    exact scanChildren_cons_ok s ca st st1 c rest h
  · intro tr st1 h
    exact Scan_success s ca tr st1 h

/-- C3 witness (scenario C): with an always-nil `Error` policy, the failing
entry "/t/b" is skipped with stats unchanged (first conjunct applied at the
state reached after sibling "a"), and the whole scan returns a nil error
with final stats `{Files 2, Dirs 1, Bytes 14}` counting both readable
siblings but not the failed entry. -/
theorem C3_witness :
    scan sNilErr none
        { checks := 2, stats := { Files := 1, Dirs := 0, Others := 0, Bytes := 5 },
          trace := [] } badB =
      ({ checks := 3, stats := { Files := 1, Dirs := 0, Others := 0, Bytes := 5 },
         trace := [Event.initCall "/t/b", Event.errCall "/t/b" "stat failed"] },
        none) ∧
    Scan sNilErr none trT =
      ([Event.initCall "/t", Event.initCall "/t/a",
        Event.result "/t/a" { Files := 1, Dirs := 0, Others := 0, Bytes := 5 },
        Event.initCall "/t/b", Event.errCall "/t/b" "stat failed",
        Event.initCall "/t/c",
        Event.result "/t/c" { Files := 2, Dirs := 0, Others := 0, Bytes := 14 },
        Event.result "/t" { Files := 2, Dirs := 1, Others := 0, Bytes := 14 },
        Event.result "" { Files := 2, Dirs := 1, Others := 0, Bytes := 14 }],
        none) :=
  ⟨(C3_onerror_nil_skips sNilErr none
      { checks := 2, stats := { Files := 1, Dirs := 0, Others := 0, Bytes := 5 },
        trace := [] }).1 badB "stat failed" (by decide) (by decide) (by decide)
      (by decide),
    (C3_onerror_nil_skips sNilErr none
      { checks := 0, stats := {}, trace := [] }).2.2.2 trT
      { checks := 4, stats := { Files := 2, Dirs := 1, Others := 0, Bytes := 14 },
        trace := [Event.initCall "/t", Event.initCall "/t/a",
          Event.result "/t/a" { Files := 1, Dirs := 0, Others := 0, Bytes := 5 },
          Event.initCall "/t/b", Event.errCall "/t/b" "stat failed",
          Event.initCall "/t/c",
          Event.result "/t/c" { Files := 2, Dirs := 0, Others := 0, Bytes := 14 },
          Event.result "/t" { Files := 2, Dirs := 1, Others := 0, Bytes := 14 }] }
      (by rw [scanTree_eqF sNilErr none 100000 trT (by decide)]; decide)⟩

/-! ### Claim C5 -/

/-- C5: for every entry on which `SelectByName` returns false, `scan`
returns immediately with the threaded state unchanged (apart from the one
cancellation check): the trace gains no `initCall` (no stat for the entry
or any descendant), no `Result` call is recorded for the entry or any
descendant, and the statistics are untouched. -/
theorem C5_selectByName_excludes_subtree (s : Scanner) (ca : Option Nat)
    (st : ScanState) (t : LazyFileMetadata) (h : s.SelectByName t.name = false) :
    scan s ca st t = ({ st with checks := st.checks + 1 }, none) := by
  by_cases hctx : ctxErr ca st.checks = true
  · exact scan_cancelled s ca st t hctx
  · exact scan_name_skip s ca st t (by simpa using hctx) h

/-- C5 witness: the directory "/x" (whose child has a failing stat) is
rejected by name: the scan makes no stat call at all, records nothing, and
counts nothing. -/
theorem C5_witness :
    sRejX.SelectByName xDir.name = false ∧
      scan sRejX none { checks := 0, stats := {}, trace := [] } xDir =
        ({ checks := 1, stats := {}, trace := [] }, none) :=
  ⟨by decide,
    C5_selectByName_excludes_subtree sRejX none
      { checks := 0, stats := {}, trace := [] } xDir (by decide)⟩

/-! ### Cancellation -/

/-- Cancellation is monotone: once a check reports it, every later one does. -/
theorem ctxErr_mono (k c c' : Nat) (h : ctxErr (some k) c = true) (hle : c ≤ c') :
    ctxErr (some k) c' = true := by
  simp [ctxErr] at *
  omega

/-- A looked-up subtree of a well-formed node list is well formed. -/
theorem wellFormedNodes_lookup {ns : List (String × Tree)} {n : String} {t : Tree}
    (hwf : wellFormedNodes ns = true) (hl : lookupTree ns n = some t) :
    wellFormedTree t = true := by
  induction ns with
  | nil => simp [lookupTree] at hl
  | cons p rest ih =>
      cases p with
      | mk k tk =>
          simp [wellFormedNodes] at hwf
          by_cases hk : k = n
          · simp [lookupTree, hk] at hl
            subst hl
            exact hwf.1
          · simp [lookupTree, hk] at hl
            exact ih hwf.2 hl

/-- When cancellation is already in effect, a well-formed tree walk makes
some number of `ctx.Err()` checks and returns the threaded stats and trace
unchanged, with no error. -/
theorem scanTree_cancelled (s : Scanner) (k : Nat) :
    ∀ (tr : Tree) (st : ScanState), wellFormedTree tr = true →
      ctxErr (some k) st.checks = true →
      ∃ m, st.checks ≤ m ∧
        scanTree s (some k) st tr = ({ st with checks := m }, none) := by
  refine inductOnTree ?_ ?_
  · intro fm st hwf hctx
    cases fm with
    | error e => simp [wellFormedTree] at hwf
    | ok ab =>
        refine ⟨st.checks + 1, by omega, ?_⟩
        exact scanTree_leaf_ok_ok s (some k) st _ ab (scan_cancelled s (some k) st ab hctx)
  · intro ns IH st hwf hctx
    rw [scanTree_node]
    have hwfn : wellFormedNodes ns = true := by simpa [wellFormedTree] using hwf
    have hloop : ∀ (names : List String) (st2 : ScanState),
        ctxErr (some k) st2.checks = true →
        ∃ m, st2.checks ≤ m ∧
          scanTreeNodes s (some k) st2 ns names = ({ st2 with checks := m }, none) := by
      intro names
      induction names with
      | nil =>
          intro st2 hctx2
          exact ⟨st2.checks, le_rfl, scanTreeNodes_nil s (some k) st2 ns⟩
      | cons n rest ihn =>
          intro st2 hctx2
          cases hl : lookupTree ns n with
          | none =>
              obtain ⟨m, hm, hrun⟩ := ihn st2 hctx2
              exact ⟨m, hm, by rw [scanTreeNodes_cons_none s (some k) st2 ns n rest hl, hrun]⟩
          | some t =>
              obtain ⟨m1, hm1, hrun1⟩ :=
                IH n t hl st2 (wellFormedNodes_lookup hwfn hl) hctx2
              refine ⟨m1 + 1, by omega, ?_⟩
              exact scanTreeNodes_cons_cancel s (some k) st2 _ ns n rest t hl hrun1
                (ctxErr_mono k st2.checks m1 hctx2 hm1)
    exact hloop (nodeNames ns) st hctx

/-! ### Claim C4 -/

/-- C4: if cancellation is requested before any entry is processed
(`ctx.Err()` reports cancellation from the very first check on), `Scan` on
any well-formed tree returns a nil error — cancellation is never surfaced
as an error — and the only callback is the final empty-path `Result` call
carrying the zero-valued `ScanStats`; no stat is performed. -/
theorem C4_cancel_before_any_entry (s : Scanner) (tr : Tree)
    (h : wellFormedTree tr = true) :
    Scan s (some 0) tr = ([Event.result "" {}], none) := by
  obtain ⟨m, _, hrun⟩ :=
    scanTree_cancelled s 0 tr { checks := 0, stats := {}, trace := [] } h (by decide)
  rw [Scan_success s (some 0) tr _ hrun]
  rfl

/-- C4 witness: cancelling before the start of the scenario-B tree scan
yields exactly one `Result` call, with empty path and zero stats, and no
error. -/
theorem C4_witness :
    Scan NewScanner (some 0) trT = ([Event.result "" {}], none) :=
  C4_cancel_before_any_entry NewScanner trT (by decide)

/-! ### Claim C9 -/

/-- C9: when a leaf's absolute-path resolution (`Abs()`) fails, `scanTree`
returns that exact error with zeroed stats and an unchanged trace — in
particular the `Error` policy is never invoked (no `errCall` event), so
this holds for every scanner, whatever its `OnError` policy — and `Scan`
on such a leaf returns the error with no callback at all. -/
theorem C9_abs_error_aborts_unconditionally (s : Scanner) (ca : Option Nat)
    (st : ScanState) (e : GoErr) :
    scanTree s ca st (Tree.leaf (Except.error e)) = ({ st with stats := {} }, some e) ∧
      Scan s ca (Tree.leaf (Except.error e)) = ([], some e) := by
  constructor
  · exact scanTree_leaf_err s ca st e
  · rw [Scan, scanTree_leaf_err]

/-! ### Sorting facts -/

/-- `strLt` is false exactly when the reverse non-strict comparison holds. -/
theorem strLt_false_iff (a b : String) : strLt a b = false ↔ b ≤ a := by
  constructor
  · intro h
    exact not_lt.mp (fun hlt => by rw [(strLt_iff a b).mpr hlt] at h; cases h)
  · intro h
    cases hb : strLt a b with
    | false => rfl
    | true => exact absurd ((strLt_iff a b).mp hb) (not_lt.mpr h)

/-- `strLt` is asymmetric. -/
theorem strLt_asymm (a b : String) (h : strLt a b = true) : strLt b a = false :=
  (strLt_false_iff b a).mpr (le_of_lt ((strLt_iff a b).mp h))

/-- Non-strict string comparison is transitive (stated on `strLt`). -/
theorem strLt_false_trans (a b c : String) (h1 : strLt b a = false)
    (h2 : strLt c b = false) : strLt c a = false :=
  (strLt_false_iff c a).mpr
    (le_trans ((strLt_false_iff b a).mp h1) ((strLt_false_iff c b).mp h2))

/-- `insertByName` permutes the element onto the list. -/
theorem insertByName_perm (x : LazyFileMetadata) (l : List LazyFileMetadata) :
    (insertByName x l).Perm (x :: l) := by
  induction l with
  | nil => simp [insertByName]
  | cons y ys ih =>
      by_cases h : strLt y.name x.name = true
      · simp only [insertByName, h, if_true]
        exact (ih.cons y).trans (List.Perm.swap x y ys)
      · have h' : strLt y.name x.name = false := by simpa using h
        simp [insertByName, h']

/-- `sortByName` is a permutation of its input. -/
theorem sortByName_perm (l : List LazyFileMetadata) : (sortByName l).Perm l := by
  induction l with
  | nil => simp [sortByName]
  | cons c cs ih =>
      exact (insertByName_perm c (sortByName cs)).trans (ih.cons c)

/-- `insertByName` preserves name-sortedness. -/
theorem insertByName_sorted (x : LazyFileMetadata) (l : List LazyFileMetadata)
    (h : List.Pairwise (fun a b => strLt b.name a.name = false) l) :
    List.Pairwise (fun a b => strLt b.name a.name = false) (insertByName x l) := by
  induction l with
  | nil => simp [insertByName]
  | cons y ys ih =>
      rw [List.pairwise_cons] at h
      by_cases hc : strLt y.name x.name = true
      · simp only [insertByName, hc, if_true]
        rw [List.pairwise_cons]
        constructor
        · intro z hz
          rcases mem_insertByName hz with hz2 | hz2
          · subst hz2
            exact strLt_asymm y.name z.name hc
          · exact h.1 z hz2
        · exact ih h.2
      · have hc' : strLt y.name x.name = false := by simpa using hc
        rw [show insertByName x (y :: ys) = x :: y :: ys from by simp [insertByName, hc']]
        rw [List.pairwise_cons]
        constructor
        · intro z hz
          simp at hz
          rcases hz with hz2 | hz2
          · subst hz2
            exact hc'
          · exact strLt_false_trans x.name y.name z.name hc' (h.1 z hz2)
        · rw [List.pairwise_cons]
          exact ⟨h.1, h.2⟩

/-- `sortByName` produces a name-sorted list. -/
theorem sortByName_sorted (l : List LazyFileMetadata) :
    List.Pairwise (fun a b => strLt b.name a.name = false) (sortByName l) := by
  induction l with
  | nil => simp [sortByName]
  | cons c cs ih => exact insertByName_sorted c (sortByName cs) ih

/-! ### Claim C7 -/

/-- C7: for a selected directory entry (not cancelled, name accepted, stat
succeeded, selected, children listed successfully), `scan` recurses into
the name-sorted children threading the statistics (hypothesis `h7` runs
the children loop from the state holding the directory's own stat event and
the incoming stats), increments the directory counter only after all
children are done (`addDir` applied to the children's final stats), and
only then invokes `Result` for the directory with statistics that already
include both the children's contributions and the directory's own count.
Moreover the processed list is exactly a name-sorted permutation of the
listed children. -/
theorem C7_directory_order (s : Scanner) (ca : Option Nat) (st st3 : ScanState)
    (t : LazyFileMetadata) (h1 : ctxErr ca st.checks = false)
    (h2 : s.SelectByName t.name = true) (h3 : t.initRes = none)
    (h4 : s.Select t = true) (h5 : t.mode = Mode.dir) (h6 : t.childRes = none)
    (h7 : scanChildren s ca
        { checks := st.checks + 1, stats := st.stats,
          trace := st.trace ++ [Event.initCall t.path] } (sortByName t.children) =
      (st3, none)) :
    scan s ca st t =
      ({ checks := st3.checks,
         stats := addDir st3.stats,
         trace := st3.trace ++ [Event.result t.path (addDir st3.stats)] }, none) ∧
      (sortByName t.children).Perm t.children ∧
      List.Pairwise (fun a b => strLt b.name a.name = false) (sortByName t.children) :=
  ⟨scan_dir_ok s ca st st3 t h1 h2 h3 h4 h5 h6 h7,
    sortByName_perm t.children, sortByName_sorted t.children⟩

/-- C7 witness: scanning the scenario-D directory (children enumerated
a, B, c): the children loop over the sorted children returns stats
`{Files 3, Bytes 6}`; the directory's `Result` call then reports
`{Files 3, Dirs 1, Bytes 6}` — children folded in first, the directory
counted after them, the directory's `Result` call last. -/
theorem C7_witness :
    scan NewScanner none { checks := 0, stats := {}, trace := [] } dirBAC =
      ({ checks := 4, stats := { Files := 3, Dirs := 1, Others := 0, Bytes := 6 },
         trace := [Event.initCall "/d",
           Event.initCall "/d/B",
           Event.result "/d/B" { Files := 1, Dirs := 0, Others := 0, Bytes := 1 },
           Event.initCall "/d/a",
           Event.result "/d/a" { Files := 2, Dirs := 0, Others := 0, Bytes := 3 },
           Event.initCall "/d/c",
           Event.result "/d/c" { Files := 3, Dirs := 0, Others := 0, Bytes := 6 },
           Event.result "/d" { Files := 3, Dirs := 1, Others := 0, Bytes := 6 }] },
        none) :=
  ((C7_directory_order NewScanner none { checks := 0, stats := {}, trace := [] }
      { checks := 4, stats := { Files := 3, Dirs := 0, Others := 0, Bytes := 6 },
        trace := [Event.initCall "/d",
          Event.initCall "/d/B",
          Event.result "/d/B" { Files := 1, Dirs := 0, Others := 0, Bytes := 1 },
          Event.initCall "/d/a",
          Event.result "/d/a" { Files := 2, Dirs := 0, Others := 0, Bytes := 3 },
          Event.initCall "/d/c",
          Event.result "/d/c" { Files := 3, Dirs := 0, Others := 0, Bytes := 6 }] }
      dirBAC (by decide) (by decide) (by decide) (by decide) (by decide) (by decide)
      (by rw [scanChildren_eqF NewScanner none 100000 _ (by decide)]; decide))).1

/-! ### Claim C1 -/

/-- Two name-sorted permutations of each other with pairwise-distinct names
are equal. -/
theorem sorted_nodup_eq (l1 l2 : List LazyFileMetadata) (hp : l1.Perm l2)
    (h1 : List.Pairwise (fun a b => strLt b.name a.name = false) l1)
    (h2 : List.Pairwise (fun a b => strLt b.name a.name = false) l2)
    (hn : (l2.map LazyFileMetadata.name).Nodup) : l1 = l2 := by
  have hn1 : (l1.map LazyFileMetadata.name).Nodup :=
    ((hp.map LazyFileMetadata.name).nodup_iff).mpr hn
  have hne1 : List.Pairwise (fun a b : LazyFileMetadata => a.name ≠ b.name) l1 :=
    List.pairwise_map.mp hn1
  have hne2 : List.Pairwise (fun a b : LazyFileMetadata => a.name ≠ b.name) l2 :=
    List.pairwise_map.mp hn
  have hs1 : List.Pairwise (fun a b : LazyFileMetadata => a.name < b.name) l1 :=
    (h1.and hne1).imp (fun h => lt_of_le_of_ne ((strLt_false_iff _ _).mp h.1) h.2)
  have hs2 : List.Pairwise (fun a b : LazyFileMetadata => a.name < b.name) l2 :=
    (h2.and hne2).imp (fun h => lt_of_le_of_ne ((strLt_false_iff _ _).mp h.1) h.2)
  haveI : IsAntisymm LazyFileMetadata (fun a b => a.name < b.name) :=
    ⟨fun a b hab hba => absurd hba (lt_asymm hab)⟩
  exact List.eq_of_perm_of_sorted hp hs1 hs2

/-- C1 counterexample: scanning a directory whose children are named "B",
"a" and "c" (scenario D, enumeration order a, B, c), the `Result` calls for
the direct children occur in the order "B", "a", "c" — Go's byte-wise sort
puts the uppercase "B" first — and not in the order "a", "B", "c" stated by
the claim. -/
theorem C1_counterexample :
    resultItems (Scan NewScanner none trBAC).1 = ["/d/B", "/d/a", "/d/c", "/d", ""] ∧
      resultItems (Scan NewScanner none trBAC).1 ≠ ["/d/a", "/d/B", "/d/c", "/d", ""] := by
  refine ⟨?_, ?_⟩ <;>
    rw [← ScanF_eq NewScanner none 100000 trBAC (by decide)] <;> decide

/-- C1 amended: for a scanned directory whose children are named "B", "a"
and "c" (in any filesystem enumeration order), the `OnResult` calls for the
direct children occur in the order "B", "a", "c" — the order induced by the
child-name sort used before recursion (byte-wise, so case-sensitively
uppercase-first), not filesystem enumeration order. -/
theorem C1_amended (cs : List LazyFileMetadata)
    (hperm : cs.Perm [fileB, fileA, fileC]) :
    Scan NewScanner none
        (Tree.leaf (Except.ok (LazyFileMetadata.mk "d" "/d" none Mode.dir 0 none cs))) =
      ([Event.initCall "/d",
        Event.initCall "/d/B",
        Event.result "/d/B" { Files := 1, Dirs := 0, Others := 0, Bytes := 1 },
        Event.initCall "/d/a",
        Event.result "/d/a" { Files := 2, Dirs := 0, Others := 0, Bytes := 3 },
        Event.initCall "/d/c",
        Event.result "/d/c" { Files := 3, Dirs := 0, Others := 0, Bytes := 6 },
        Event.result "/d" { Files := 3, Dirs := 1, Others := 0, Bytes := 6 },
        Event.result "" { Files := 3, Dirs := 1, Others := 0, Bytes := 6 }], none) := by
  have hsort : sortByName cs = [fileB, fileA, fileC] := by
    refine sorted_nodup_eq _ _ ((sortByName_perm cs).trans hperm)
      (sortByName_sorted cs) (by decide) (by decide)
  have hdir2 : scan NewScanner none { checks := 0, stats := {}, trace := [] }
      (LazyFileMetadata.mk "d" "/d" none Mode.dir 0 none cs) =
      ({ checks := 4, stats := { Files := 3, Dirs := 1, Others := 0, Bytes := 6 },
         trace := [Event.initCall "/d",
           Event.initCall "/d/B",
           Event.result "/d/B" { Files := 1, Dirs := 0, Others := 0, Bytes := 1 },
           Event.initCall "/d/a",
           Event.result "/d/a" { Files := 2, Dirs := 0, Others := 0, Bytes := 3 },
           Event.initCall "/d/c",
           Event.result "/d/c" { Files := 3, Dirs := 0, Others := 0, Bytes := 6 },
           Event.result "/d" { Files := 3, Dirs := 1, Others := 0, Bytes := 6 }] },
        none) := by
    have h7 : scanChildren NewScanner none
        { checks := 1, stats := {}, trace := [Event.initCall "/d"] }
        (sortByName cs) =
        ({ checks := 4, stats := { Files := 3, Dirs := 0, Others := 0, Bytes := 6 },
           trace := [Event.initCall "/d",
             Event.initCall "/d/B",
             Event.result "/d/B" { Files := 1, Dirs := 0, Others := 0, Bytes := 1 },
             Event.initCall "/d/a",
             Event.result "/d/a" { Files := 2, Dirs := 0, Others := 0, Bytes := 3 },
             Event.initCall "/d/c",
             Event.result "/d/c" { Files := 3, Dirs := 0, Others := 0, Bytes := 6 }] },
          none) := by
      rw [hsort, scanChildren_eqF NewScanner none 100000 _ (by decide)]
      decide
    exact (scan_dir_ok NewScanner none { checks := 0, stats := {}, trace := [] } _
      (LazyFileMetadata.mk "d" "/d" none Mode.dir 0 none cs)
      rfl rfl rfl rfl rfl rfl h7)
  rw [Scan_success NewScanner none _ _
    (scanTree_leaf_ok_ok NewScanner none _ _ _ hdir2)]
  rfl

/-- C1 witness for the amended claim: the scenario-D enumeration order
a, B, c still produces `Result` calls in the order B, a, c. -/
theorem C1_witness :
    Scan NewScanner none trBAC =
      ([Event.initCall "/d",
        Event.initCall "/d/B",
        Event.result "/d/B" { Files := 1, Dirs := 0, Others := 0, Bytes := 1 },
        Event.initCall "/d/a",
        Event.result "/d/a" { Files := 2, Dirs := 0, Others := 0, Bytes := 3 },
        Event.initCall "/d/c",
        Event.result "/d/c" { Files := 3, Dirs := 0, Others := 0, Bytes := 6 },
        Event.result "/d" { Files := 3, Dirs := 1, Others := 0, Bytes := 6 },
        Event.result "" { Files := 3, Dirs := 1, Others := 0, Bytes := 6 }], none) :=
  C1_amended [fileA, fileB, fileC] (List.Perm.swap fileB fileA [fileC])

/-! ### Claim C10 -/

/-- C10: cancellation observed partway through a scan is invisible in the
return value: (1) as soon as a `ctx.Err()` check reports cancellation, the
recursion returns the accumulated partial stats with a nil error; (2)
whenever the tree walk returns a nil error — in particular when it was cut
short by cancellation — `Scan` still invokes `Result` with the empty-path
sentinel carrying the accumulated (partial) statistics and returns nil, the
same shape a completed scan produces. -/
theorem C10_cancel_partway_clean :
    (∀ (s : Scanner) (ca : Option Nat) (st : ScanState) (t : LazyFileMetadata),
      ctxErr ca st.checks = true →
        scan s ca st t = ({ st with checks := st.checks + 1 }, none)) ∧
    (∀ (s : Scanner) (ca : Option Nat) (tr : Tree) (st1 : ScanState),
      scanTree s ca { checks := 0, stats := {}, trace := [] } tr = (st1, none) →
        Scan s ca tr = (st1.trace ++ [Event.result "" st1.stats], none)) :=
  ⟨fun s ca st t h => scan_cancelled s ca st t h,
    fun s ca tr st1 h => Scan_success s ca tr st1 h⟩

/-- C10 witness: cancelling after the second check cuts the three-file
directory scan short — only "g1" was counted — yet the directory `Result`
call, the final empty-path `Result` call with the partial stats
`{Files 1, Dirs 1, Bytes 10}`, and the nil return all still happen, just
like in a completed scan. -/
theorem C10_witness :
    Scan NewScanner (some 2) trG =
      ([Event.initCall "/g",
        Event.initCall "/g/g1",
        Event.result "/g/g1" { Files := 1, Dirs := 0, Others := 0, Bytes := 10 },
        Event.result "/g" { Files := 1, Dirs := 1, Others := 0, Bytes := 10 },
        Event.result "" { Files := 1, Dirs := 1, Others := 0, Bytes := 10 }], none) :=
  C10_cancel_partway_clean.2 NewScanner (some 2) trG
    { checks := 4, stats := { Files := 1, Dirs := 1, Others := 0, Bytes := 10 },
      trace := [Event.initCall "/g",
        Event.initCall "/g/g1",
        Event.result "/g/g1" { Files := 1, Dirs := 0, Others := 0, Bytes := 10 },
        Event.result "/g" { Files := 1, Dirs := 1, Others := 0, Bytes := 10 }] }
    (by rw [scanTree_eqF NewScanner (some 2) 100000 trG (by decide)]; decide)

/-! ### Claim C6: canonicalisation -/

/-- `canon` preserves the entry name. -/
theorem canon_name (t : LazyFileMetadata) : (canon t).name = t.name := by
  cases t with
  | mk n p ir m sz cr cs => rfl

/-- `canonList` commutes with `insertByName`. -/
theorem canonList_insertByName (x : LazyFileMetadata) (l : List LazyFileMetadata) :
    canonList (insertByName x l) = insertByName (canon x) (canonList l) := by
  induction l with
  | nil => rfl
  | cons y ys ih =>
      by_cases h : strLt y.name x.name = true
      · have h2 : strLt (canon y).name (canon x).name = true := by
          rw [canon_name, canon_name]
          exact h
        rw [show insertByName x (y :: ys) = y :: insertByName x ys from by
          simp [insertByName, h]]
        rw [show canonList (y :: insertByName x ys) =
          canon y :: canonList (insertByName x ys) from rfl]
        rw [ih]
        rw [show canonList (y :: ys) = canon y :: canonList ys from rfl]
        rw [show insertByName (canon x) (canon y :: canonList ys) =
          canon y :: insertByName (canon x) (canonList ys) from by simp [insertByName, h2]]
      · have h' : strLt y.name x.name = false := by simpa using h
        have h2 : strLt (canon y).name (canon x).name = false := by
          rw [canon_name, canon_name]
          exact h'
        rw [show insertByName x (y :: ys) = x :: y :: ys from by simp [insertByName, h']]
        rw [show canonList (x :: y :: ys) = canon x :: canon y :: canonList ys from rfl]
        rw [show canonList (y :: ys) = canon y :: canonList ys from rfl]
        rw [show insertByName (canon x) (canon y :: canonList ys) =
          canon x :: canon y :: canonList ys from by simp [insertByName, h2]]

/-- Sorting a name-sorted list changes nothing. -/
theorem sortByName_of_sorted (l : List LazyFileMetadata)
    (h : List.Pairwise (fun a b => strLt b.name a.name = false) l) :
    sortByName l = l := by
  induction l with
  | nil => rfl
  | cons y ys ih =>
      rw [List.pairwise_cons] at h
      rw [show sortByName (y :: ys) = insertByName y (sortByName ys) from rfl, ih h.2]
      cases ys with
      | nil => rfl
      | cons z zs =>
          have hz : strLt z.name y.name = false := h.1 z (by simp)
          simp [insertByName, hz]

/-- `canonList` commutes with `sortByName`. -/
theorem canonList_sortByName (l : List LazyFileMetadata) :
    canonList (sortByName l) = sortByName (canonList l) := by
  induction l with
  | nil => rfl
  | cons c cs ih =>
      rw [show sortByName (c :: cs) = insertByName c (sortByName cs) from rfl]
      rw [canonList_insertByName, ih]
      rfl

/-- The children loop is invariant under canonicalising the list, given
pointwise invariance of `scan`. -/
theorem scanChildren_canonList (s : Scanner) (ca : Option Nat)
    (l : List LazyFileMetadata)
    (hp : ∀ c ∈ l, ∀ st, scan s ca st (canon c) = scan s ca st c) :
    ∀ st, scanChildren s ca st (canonList l) = scanChildren s ca st l := by
  induction l with
  | nil => intro st; rfl
  | cons c rest ih =>
      intro st
      rw [show canonList (c :: rest) = canon c :: canonList rest from rfl]
      have hc := hp c (by simp) st
      cases hscan : scan s ca st c with
      | mk st1 r =>
          cases r with
          | none =>
              rw [scanChildren_cons_ok s ca st st1 (canon c) (canonList rest)
                (hc.trans hscan)]
              rw [scanChildren_cons_ok s ca st st1 c rest hscan]
              exact ih (fun c2 h2 st2 => hp c2 (by simp [h2]) st2) st1
          | some e =>
              rw [scanChildren_cons_err s ca st st1 (canon c) (canonList rest) e
                (hc.trans hscan)]
              rw [scanChildren_cons_err s ca st st1 c rest e hscan]

/-- `scan` depends only on the canonical form of the snapshot, for any
scanner whose `Select` policy cannot observe children enumeration order
(the default policies in particular). -/
theorem scan_canon (s : Scanner) (ca : Option Nat)
    (hSel : ∀ u, s.Select (canon u) = s.Select u) :
    ∀ (t : LazyFileMetadata) (st : ScanState),
      scan s ca st (canon t) = scan s ca st t := by
  refine inductOnFm ?_
  intro n p ir m sz cr cs IH st
  by_cases hctx : ctxErr ca st.checks = true
  · rw [scan_cancelled s ca st (canon (LazyFileMetadata.mk n p ir m sz cr cs)) hctx,
      scan_cancelled s ca st (LazyFileMetadata.mk n p ir m sz cr cs) hctx]
  · have hctx' : ctxErr ca st.checks = false := by simpa using hctx
    by_cases hname : s.SelectByName n = true
    case neg =>
        have hname' : s.SelectByName n = false := by simpa using hname
        rw [scan_name_skip s ca st (canon (LazyFileMetadata.mk n p ir m sz cr cs))
          hctx' hname']
        rw [scan_name_skip s ca st (LazyFileMetadata.mk n p ir m sz cr cs) hctx' hname']
    case pos =>
        cases ir with
        | some e0 =>
            rw [scan_init_err s ca st
              (canon (LazyFileMetadata.mk n p (some e0) m sz cr cs)) e0 hctx' hname rfl]
            rw [scan_init_err s ca st
              (LazyFileMetadata.mk n p (some e0) m sz cr cs) e0 hctx' hname rfl]
            rfl
        | none =>
            by_cases hsel : s.Select (LazyFileMetadata.mk n p none m sz cr cs) = true
            case neg =>
                have hsel' : s.Select (LazyFileMetadata.mk n p none m sz cr cs) = false := by
                  simpa using hsel
                have hselc : s.Select (canon (LazyFileMetadata.mk n p none m sz cr cs)) =
                    false := by
                  rw [hSel]
                  exact hsel'
                rw [scan_select_skip s ca st
                  (canon (LazyFileMetadata.mk n p none m sz cr cs)) hctx' hname rfl hselc]
                rw [scan_select_skip s ca st (LazyFileMetadata.mk n p none m sz cr cs)
                  hctx' hname rfl hsel']
                rfl
            case pos =>
                have hselc : s.Select (canon (LazyFileMetadata.mk n p none m sz cr cs)) =
                    true := by
                  rw [hSel]
                  exact hsel
                cases m with
                | regular =>
                    rw [scan_regular s ca st
                      (canon (LazyFileMetadata.mk n p none Mode.regular sz cr cs))
                      hctx' hname rfl hselc rfl]
                    rw [scan_regular s ca st
                      (LazyFileMetadata.mk n p none Mode.regular sz cr cs)
                      hctx' hname rfl hsel rfl]
                    rfl
                | other =>
                    rw [scan_other s ca st
                      (canon (LazyFileMetadata.mk n p none Mode.other sz cr cs))
                      hctx' hname rfl hselc rfl]
                    rw [scan_other s ca st
                      (LazyFileMetadata.mk n p none Mode.other sz cr cs)
                      hctx' hname rfl hsel rfl]
                    rfl
                | dir =>
                    cases cr with
                    | some e0 =>
                        rw [scan_dir_childerr s ca st
                          (canon (LazyFileMetadata.mk n p none Mode.dir sz (some e0) cs))
                          e0 hctx' hname rfl hselc rfl rfl]
                        rw [scan_dir_childerr s ca st
                          (LazyFileMetadata.mk n p none Mode.dir sz (some e0) cs)
                          e0 hctx' hname rfl hsel rfl rfl]
                        rfl
                    | none =>
                        have hchild : ∀ st2 : ScanState,
                            scanChildren s ca st2
                              (sortByName
                                (canon (LazyFileMetadata.mk n p none Mode.dir sz none
                                  cs)).children) =
                            scanChildren s ca st2 (sortByName cs) := by
                          intro st2
                          rw [show (canon (LazyFileMetadata.mk n p none Mode.dir sz none
                            cs)).children = sortByName (canonList cs) from rfl]
                          rw [sortByName_of_sorted _ (sortByName_sorted (canonList cs))]
                          rw [← canonList_sortByName cs]
                          exact scanChildren_canonList s ca (sortByName cs)
                            (fun c hc st3 => IH c (mem_sortByName hc) st3) st2
                        cases hsc : scanChildren s ca
                            { checks := st.checks + 1, stats := st.stats,
                              trace := st.trace ++ [Event.initCall p] }
                            (sortByName cs) with
                        | mk st3 r =>
                            cases r with
                            | none =>
                                rw [scan_dir_ok s ca st st3
                                  (canon (LazyFileMetadata.mk n p none Mode.dir sz none cs))
                                  hctx' hname rfl hselc rfl rfl ((hchild _).trans hsc)]
                                rw [scan_dir_ok s ca st st3
                                  (LazyFileMetadata.mk n p none Mode.dir sz none cs)
                                  hctx' hname rfl hsel rfl rfl hsc]
                                rfl
                            | some e =>
                                rw [scan_dir_err s ca st st3
                                  (canon (LazyFileMetadata.mk n p none Mode.dir sz none cs))
                                  e hctx' hname rfl hselc rfl rfl ((hchild _).trans hsc)]
                                rw [scan_dir_err s ca st st3
                                  (LazyFileMetadata.mk n p none Mode.dir sz none cs)
                                  e hctx' hname rfl hsel rfl rfl hsc]

/-- `canonNodes` preserves a node's key list. -/
theorem canonNodes_keys (ns : List (String × Tree)) :
    (canonNodes ns).map Prod.fst = ns.map Prod.fst := by
  induction ns with
  | nil => rfl
  | cons pr rest ih =>
      cases pr with
      | mk k tk =>
          rw [show canonNodes ((k, tk) :: rest) = (k, canonTree tk) :: canonNodes rest
            from rfl]
          simp [ih]

/-- `lookupTree` through `canonNodes`. -/
theorem lookupTree_canonNodes (ns : List (String × Tree)) (n : String) :
    lookupTree (canonNodes ns) n = Option.map canonTree (lookupTree ns n) := by
  induction ns with
  | nil => rfl
  | cons pr rest ih =>
      cases pr with
      | mk k tk =>
          by_cases hk : k = n
          · simp [canonNodes, lookupTree, hk]
          · simp [canonNodes, lookupTree, hk, ih]

/-- The node-name loop is invariant under canonicalising the node list,
given pointwise invariance of `scanTree` on the subtrees it can look up. -/
theorem scanTreeNodes_canon (s : Scanner) (ca : Option Nat)
    (ns : List (String × Tree))
    (hp : ∀ nm t, lookupTree ns nm = some t →
      ∀ st, scanTree s ca st (canonTree t) = scanTree s ca st t) :
    ∀ (names : List String) (st : ScanState),
      scanTreeNodes s ca st (canonNodes ns) names = scanTreeNodes s ca st ns names := by
  intro names
  induction names with
  | nil =>
      intro st
      rw [scanTreeNodes_nil, scanTreeNodes_nil]
  | cons n rest ih =>
      intro st
      cases hl : lookupTree ns n with
      | none =>
          have hlc : lookupTree (canonNodes ns) n = none := by
            rw [lookupTree_canonNodes, hl]
            rfl
          rw [scanTreeNodes_cons_none s ca st _ n rest hlc]
          rw [scanTreeNodes_cons_none s ca st ns n rest hl]
          exact ih st
      | some t =>
          have hlc : lookupTree (canonNodes ns) n = some (canonTree t) := by
            rw [lookupTree_canonNodes, hl]
            rfl
          have hct := hp n t hl st
          cases hscan : scanTree s ca st t with
          | mk st1 r =>
              cases r with
              | none =>
                  by_cases hcx : ctxErr ca st1.checks = true
                  · rw [scanTreeNodes_cons_cancel s ca st st1 _ n rest (canonTree t) hlc
                      (hct.trans hscan) hcx]
                    rw [scanTreeNodes_cons_cancel s ca st st1 ns n rest t hl hscan hcx]
                  · have hcx' : ctxErr ca st1.checks = false := by simpa using hcx
                    rw [scanTreeNodes_cons_step s ca st st1 _ n rest (canonTree t) hlc
                      (hct.trans hscan) hcx']
                    rw [scanTreeNodes_cons_step s ca st st1 ns n rest t hl hscan hcx']
                    exact ih _
              | some e =>
                  rw [scanTreeNodes_cons_err s ca st st1 _ n rest (canonTree t) e hlc
                    (hct.trans hscan)]
                  rw [scanTreeNodes_cons_err s ca st st1 ns n rest t e hl hscan]

/-- `scanTree` depends only on the canonical form of the snapshot. -/
theorem scanTree_canon (s : Scanner) (ca : Option Nat)
    (hSel : ∀ u, s.Select (canon u) = s.Select u) :
    ∀ (tr : Tree) (st : ScanState),
      scanTree s ca st (canonTree tr) = scanTree s ca st tr := by
  refine inductOnTree ?_ ?_
  · intro fm st
    cases fm with
    | error e => rfl
    | ok ab =>
        have hs := scan_canon s ca hSel ab st
        cases hscan : scan s ca st ab with
        | mk st1 r =>
            cases r with
            | none =>
                rw [show canonTree (Tree.leaf (Except.ok ab)) =
                  Tree.leaf (Except.ok (canon ab)) from rfl]
                rw [scanTree_leaf_ok_ok s ca st st1 (canon ab) (hs.trans hscan)]
                rw [scanTree_leaf_ok_ok s ca st st1 ab hscan]
            | some e =>
                rw [show canonTree (Tree.leaf (Except.ok ab)) =
                  Tree.leaf (Except.ok (canon ab)) from rfl]
                rw [scanTree_leaf_ok_err s ca st st1 (canon ab) e (hs.trans hscan)]
                rw [scanTree_leaf_ok_err s ca st st1 ab e hscan]
  · intro ns IH st
    rw [show canonTree (Tree.node ns) = Tree.node (canonNodes ns) from rfl]
    rw [scanTree_node, scanTree_node]
    rw [show nodeNames (canonNodes ns) = nodeNames ns from by
      rw [nodeNames, canonNodes_keys]
      rfl]
    exact scanTreeNodes_canon s ca ns (fun nm t hl st2 => IH nm t hl st2)
      (nodeNames ns) st

/-- C6: determinism over a fixed snapshot with the default policies. Two
logical trees denoting the same filesystem snapshot — equal up to the
enumeration order of directory children, i.e. with equal canonical forms —
produce identical `Scan` outcomes: the same `Result` call sequence (same
paths, same stats values, same order), the same whole event trace, and the
same returned error, for any (fixed) cancellation behaviour.  Repeated
invocations over a fixed snapshot are the special case `t1 = t2`. -/
theorem C6_determinism (ca : Option Nat) (t1 t2 : Tree)
    (h : canonTree t1 = canonTree t2) :
    Scan NewScanner ca t1 = Scan NewScanner ca t2 := by
  have hSel : ∀ u, NewScanner.Select (canon u) = NewScanner.Select u := fun _ => rfl
  unfold Scan
  rw [← scanTree_canon NewScanner ca hSel t1, h, scanTree_canon NewScanner ca hSel t2]

/-- C6 witness: the scenario-D snapshot enumerated as c, a, B versus
a, B, c: both runs produce identical traces — concretely the sorted order
B, a, c with identical stats at every `Result` call. -/
theorem C6_witness :
    Scan NewScanner none trCAB = Scan NewScanner none trBAC ∧
      Scan NewScanner none trBAC =
        ([Event.initCall "/d",
          Event.initCall "/d/B",
          Event.result "/d/B" { Files := 1, Dirs := 0, Others := 0, Bytes := 1 },
          Event.initCall "/d/a",
          Event.result "/d/a" { Files := 2, Dirs := 0, Others := 0, Bytes := 3 },
          Event.initCall "/d/c",
          Event.result "/d/c" { Files := 3, Dirs := 0, Others := 0, Bytes := 6 },
          Event.result "/d" { Files := 3, Dirs := 1, Others := 0, Bytes := 6 },
          Event.result "" { Files := 3, Dirs := 1, Others := 0, Bytes := 6 }], none) :=
  ⟨C6_determinism none trCAB trBAC rfl,
    by rw [← ScanF_eq NewScanner none 100000 trBAC (by decide)]; decide⟩

/-! ### Claim C8: monotonicity bookkeeping -/

/-- `resultEvents` distributes over append. -/
theorem resultEvents_append (l1 l2 : List Event) :
    resultEvents (l1 ++ l2) = resultEvents l1 ++ resultEvents l2 := by
  induction l1 with
  | nil => rfl
  | cons e rest ih =>
      cases e with
      | initCall p => simpa [resultEvents] using ih
      | errCall p er => simpa [resultEvents] using ih
      | result i s0 => simpa [resultEvents] using ih

/-- `resStats` distributes over append. -/
theorem resStats_append (l1 l2 : List Event) :
    resStats (l1 ++ l2) = resStats l1 ++ resStats l2 := by
  rw [resStats, resultEvents_append, List.map_append]
  rfl

/-- `statsLe` is reflexive. -/
theorem statsLe_refl (a : ScanStats) : statsLe a a :=
  ⟨le_rfl, le_rfl, le_rfl, le_rfl⟩

/-- `statsLe` is transitive. -/
theorem statsLe_trans {a b c : ScanStats} (h1 : statsLe a b) (h2 : statsLe b c) :
    statsLe a c :=
  ⟨le_trans h1.1 h2.1, le_trans h1.2.1 h2.2.1, le_trans h1.2.2.1 h2.2.2.1,
    le_trans h1.2.2.2 h2.2.2.2⟩

/-- A `statsLe`-chain ending in `a` can be re-ended in any `b ≥ a`,
duplicating it. -/
theorem chain_replace_extend (xs : List ScanStats) (a b : ScanStats)
    (h : List.Chain' statsLe (xs ++ [a])) (hab : statsLe a b) :
    List.Chain' statsLe (xs ++ [b, b]) := by
  rw [List.chain'_append] at h
  rw [show (xs ++ [b, b]) = xs ++ [b] ++ [b] from by simp, List.chain'_append,
    List.chain'_append]
  refine ⟨⟨h.1, by simp [List.chain'_singleton], ?_⟩, by simp [List.chain'_singleton], ?_⟩
  · intro x hx y hy
    simp at hy
    subst hy
    exact statsLe_trans (h.2.2 x hx a (by simp)) hab
  · intro x hx y hy
    simp at hx hy
    subst hx
    subst hy
    exact statsLe_refl b

/-- Dropping the appended last element of a chain keeps a chain. -/
theorem chain_drop_last (xs : List ScanStats) (a : ScanStats)
    (h : List.Chain' statsLe (xs ++ [a])) : List.Chain' statsLe xs := by
  rw [List.chain'_append] at h
  exact h.1

/-- Every element of a chain that ends in `b` is `statsLe b`. -/
theorem chain_le_last (xs : List ScanStats) (b : ScanStats)
    (h : List.Chain' statsLe (xs ++ [b])) : ∀ x ∈ xs ++ [b], statsLe x b := by
  induction xs with
  | nil =>
      intro x hx
      simp at hx
      subst hx
      exact statsLe_refl _
  | cons a rest ih =>
      intro x hx
      have h2 : List.Chain' statsLe (rest ++ [b]) := by
        rw [show (a :: rest) ++ [b] = a :: (rest ++ [b]) from rfl] at h
        exact h.tail
      simp only [List.cons_append, List.mem_cons] at hx
      rcases hx with hxa | hx2
      · subst hxa
        have hne : rest ++ [b] ≠ [] := by simp
        obtain ⟨y, ys, hys⟩ := List.exists_cons_of_ne_nil hne
        have hay : statsLe x y := by
          rw [show (x :: rest) ++ [b] = x :: (rest ++ [b]) from rfl, hys] at h
          exact (List.chain'_cons.mp h).1
        have hyb : statsLe y b := ih h2 y (by rw [hys]; simp)
        exact statsLe_trans hay hyb
      · exact ih h2 x hx2

/-- `weightList` is invariant under `insertByName`. -/
theorem weightList_insertByName (x : LazyFileMetadata) (l : List LazyFileMetadata) :
    weightList (insertByName x l) = weight x + weightList l := by
  induction l with
  | nil => rfl
  | cons y ys ih =>
      by_cases h : strLt y.name x.name = true
      · rw [show insertByName x (y :: ys) = y :: insertByName x ys from by
          simp [insertByName, h]]
        rw [show weightList (y :: insertByName x ys) =
          weight y + weightList (insertByName x ys) from rfl, ih]
        rw [show weightList (y :: ys) = weight y + weightList ys from rfl]
        omega
      · have h' : strLt y.name x.name = false := by simpa using h
        rw [show insertByName x (y :: ys) = x :: y :: ys from by simp [insertByName, h']]
        rfl

/-- `weightList` is invariant under sorting. -/
theorem weightList_sortByName (l : List LazyFileMetadata) :
    weightList (sortByName l) = weightList l := by
  induction l with
  | nil => rfl
  | cons c cs ih =>
      rw [show sortByName (c :: cs) = insertByName c (sortByName cs) from rfl,
        weightList_insertByName, ih]
      rfl

/-- `goodSt` is untouched by appending events that contain no `Result`. -/
theorem goodSt_append_nonresult (st : ScanState) (checks2 : Nat) (evs : List Event)
    (hevs : resStats evs = []) (g : goodSt st) :
    goodSt ⟨checks2, st.stats, st.trace ++ evs⟩ := by
  unfold goodSt at *
  rw [show (⟨checks2, st.stats, st.trace ++ evs⟩ : ScanState).trace = st.trace ++ evs
    from rfl]
  rw [resStats_append, hevs]
  simpa using g

/-- `goodSt` is preserved by appending events whose only `Result` call
carries the new (larger) threaded stats. -/
theorem goodSt_append_result (st : ScanState) (checks2 : Nat) (evs : List Event)
    (b : ScanStats) (hevs : resStats evs = [b]) (hle : statsLe st.stats b)
    (g : goodSt st) : goodSt ⟨checks2, b, st.trace ++ evs⟩ := by
  unfold goodSt at *
  rw [show (⟨checks2, b, st.trace ++ evs⟩ : ScanState).trace = st.trace ++ evs from rfl]
  rw [resStats_append, hevs]
  have h2 := chain_replace_extend (resStats st.trace) st.stats b g hle
  simpa using h2

/-- Field values of `addFile` when no wrap-around occurs. -/
theorem addFile_facts (stats : ScanStats) (sz : Nat) (h1 : stats.Files + 1 < W64)
    (h2 : stats.Bytes + sz < W64) :
    (addFile stats sz).Files = stats.Files + 1 ∧
      (addFile stats sz).Dirs = stats.Dirs ∧
      (addFile stats sz).Others = stats.Others ∧
      (addFile stats sz).Bytes = stats.Bytes + sz := by
  simp [addFile, Nat.mod_eq_of_lt h1, Nat.mod_eq_of_lt h2]

/-- Field values of `addDir` when no wrap-around occurs. -/
theorem addDir_facts (stats : ScanStats) (h1 : stats.Dirs + 1 < W64) :
    (addDir stats).Files = stats.Files ∧ (addDir stats).Dirs = stats.Dirs + 1 ∧
      (addDir stats).Others = stats.Others ∧ (addDir stats).Bytes = stats.Bytes := by
  simp [addDir, Nat.mod_eq_of_lt h1]

/-- Field values of `addOther` when no wrap-around occurs. -/
theorem addOther_facts (stats : ScanStats) (h1 : stats.Others + 1 < W64) :
    (addOther stats).Files = stats.Files ∧ (addOther stats).Dirs = stats.Dirs ∧
      (addOther stats).Others = stats.Others + 1 ∧
      (addOther stats).Bytes = stats.Bytes := by
  simp [addOther, Nat.mod_eq_of_lt h1]

/-- The children loop: within the no-overflow budget `weightList l`, the
threaded stats grow monotonically, stay within the budget, and the
trace-chain invariant is preserved — whether the loop succeeds or aborts. -/
theorem scanChildren_mono (s : Scanner) (ca : Option Nat)
    (l : List LazyFileMetadata)
    (hp : ∀ c ∈ l, ∀ (st st1 : ScanState) (r : Option GoErr),
      scan s ca st c = (st1, r) →
      st.stats.Files + weight c < W64 → st.stats.Dirs + weight c < W64 →
      st.stats.Others + weight c < W64 → st.stats.Bytes + weight c < W64 →
      (goodSt st → goodSt st1) ∧ statsLe st.stats st1.stats ∧
      st1.stats.Files ≤ st.stats.Files + weight c ∧
      st1.stats.Dirs ≤ st.stats.Dirs + weight c ∧
      st1.stats.Others ≤ st.stats.Others + weight c ∧
      st1.stats.Bytes ≤ st.stats.Bytes + weight c) :
    ∀ (st st1 : ScanState) (r : Option GoErr),
      scanChildren s ca st l = (st1, r) →
      st.stats.Files + weightList l < W64 → st.stats.Dirs + weightList l < W64 →
      st.stats.Others + weightList l < W64 → st.stats.Bytes + weightList l < W64 →
      (goodSt st → goodSt st1) ∧ statsLe st.stats st1.stats ∧
      st1.stats.Files ≤ st.stats.Files + weightList l ∧
      st1.stats.Dirs ≤ st.stats.Dirs + weightList l ∧
      st1.stats.Others ≤ st.stats.Others + weightList l ∧
      st1.stats.Bytes ≤ st.stats.Bytes + weightList l := by
  induction l with
  | nil =>
      intro st st1 r h hF hD hO hB
      rw [scanChildren_nil] at h
      cases h
      exact ⟨fun g => g, statsLe_refl _, Nat.le_add_right _ _, Nat.le_add_right _ _,
        Nat.le_add_right _ _, Nat.le_add_right _ _⟩
  | cons c rest ih =>
      intro st st1 r h hF hD hO hB
      have hwl : weightList (c :: rest) = weight c + weightList rest := rfl
      cases hscan : scan s ca st c with
      | mk stc rc =>
          have hcm := hp c (by simp) st stc rc hscan (by (try dsimp only); omega) (by (try dsimp only); omega) (by (try dsimp only); omega)
            (by (try dsimp only); omega)
          cases rc with
          | some e =>
              rw [scanChildren_cons_err s ca st stc c rest e hscan] at h
              cases h
              refine ⟨hcm.1, hcm.2.1, by (try dsimp only); omega, by (try dsimp only); omega, by (try dsimp only); omega, by (try dsimp only); omega⟩
          | none =>
              rw [scanChildren_cons_ok s ca st stc c rest hscan] at h
              have hrest := ih (fun c2 h2 => hp c2 (by simp [h2])) stc st1 r h
                (by (try dsimp only); omega) (by (try dsimp only); omega) (by (try dsimp only); omega) (by (try dsimp only); omega)
              refine ⟨fun g => hrest.1 (hcm.1 g), statsLe_trans hcm.2.1 hrest.2.1,
                by (try dsimp only); omega, by (try dsimp only); omega, by (try dsimp only); omega, by (try dsimp only); omega⟩

/-- `scan`: within the no-overflow budget `weight t`, the threaded stats
grow monotonically, stay within the budget, and the trace-chain invariant
is preserved — whether the scan succeeds or aborts. -/
theorem scan_mono (s : Scanner) (ca : Option Nat) :
    ∀ (t : LazyFileMetadata) (st st1 : ScanState) (r : Option GoErr),
      scan s ca st t = (st1, r) →
      st.stats.Files + weight t < W64 → st.stats.Dirs + weight t < W64 →
      st.stats.Others + weight t < W64 → st.stats.Bytes + weight t < W64 →
      (goodSt st → goodSt st1) ∧ statsLe st.stats st1.stats ∧
      st1.stats.Files ≤ st.stats.Files + weight t ∧
      st1.stats.Dirs ≤ st.stats.Dirs + weight t ∧
      st1.stats.Others ≤ st.stats.Others + weight t ∧
      st1.stats.Bytes ≤ st.stats.Bytes + weight t := by
  refine inductOnFm ?_
  intro n p ir m sz cr cs IH st st1 r hscan hF hD hO hB
  have hw : weight (LazyFileMetadata.mk n p ir m sz cr cs) = 1 + sz + weightList cs := rfl
  rw [hw] at hF hD hO hB ⊢
  by_cases hctx : ctxErr ca st.checks = true
  · rw [scan_cancelled s ca st _ hctx] at hscan
    cases hscan
    exact ⟨fun g => g, statsLe_refl _, by (try dsimp only); omega, by (try dsimp only); omega, by (try dsimp only); omega, by (try dsimp only); omega⟩
  · have hctx' : ctxErr ca st.checks = false := by simpa using hctx
    by_cases hname : s.SelectByName (LazyFileMetadata.mk n p ir m sz cr cs).name = true
    case neg =>
        rw [scan_name_skip s ca st _ hctx' (by simpa using hname)] at hscan
        cases hscan
        exact ⟨fun g => g, statsLe_refl _, by (try dsimp only); omega, by (try dsimp only); omega, by (try dsimp only); omega, by (try dsimp only); omega⟩
    case pos =>
        cases ir with
        | some e0 =>
            rw [scan_init_err s ca st _ e0 hctx' hname
              (by simp [LazyFileMetadata.initRes])] at hscan
            cases hscan
            refine ⟨fun g => goodSt_append_nonresult st _ _ rfl g, statsLe_refl _,
              by (try dsimp only); omega, by (try dsimp only); omega, by (try dsimp only); omega, by (try dsimp only); omega⟩
        | none =>
            by_cases hsel : s.Select (LazyFileMetadata.mk n p none m sz cr cs) = true
            case neg =>
                rw [scan_select_skip s ca st _ hctx' hname
                  (by simp [LazyFileMetadata.initRes]) (by simpa using hsel)] at hscan
                cases hscan
                refine ⟨fun g => goodSt_append_nonresult st _ _ rfl g, statsLe_refl _,
                  by (try dsimp only); omega, by (try dsimp only); omega, by (try dsimp only); omega, by (try dsimp only); omega⟩
            case pos =>
                cases m with
                | regular =>
                    rw [scan_regular s ca st _ hctx' hname
                      (by simp [LazyFileMetadata.initRes]) hsel
                      (by simp [LazyFileMetadata.mode])] at hscan
                    cases hscan
                    rw [show (LazyFileMetadata.mk n p none Mode.regular sz cr cs).size = sz
                      from rfl]
                    have hff := addFile_facts st.stats sz (by omega) (by omega)
                    refine ⟨fun g => goodSt_append_result st _ _ _ rfl
                        ⟨by (try dsimp only); omega, by (try dsimp only); omega, by (try dsimp only); omega, by (try dsimp only); omega⟩ g,
                      ⟨by (try dsimp only); omega, by (try dsimp only); omega, by (try dsimp only); omega, by (try dsimp only); omega⟩,
                      by (try dsimp only); omega, by (try dsimp only); omega, by (try dsimp only); omega, by (try dsimp only); omega⟩
                | other =>
                    rw [scan_other s ca st _ hctx' hname
                      (by simp [LazyFileMetadata.initRes]) hsel
                      (by simp [LazyFileMetadata.mode])] at hscan
                    cases hscan
                    have hoo := addOther_facts st.stats (by (try dsimp only); omega)
                    refine ⟨fun g => goodSt_append_result st _ _ _ rfl
                        ⟨by (try dsimp only); omega, by (try dsimp only); omega, by (try dsimp only); omega, by (try dsimp only); omega⟩ g,
                      ⟨by (try dsimp only); omega, by (try dsimp only); omega, by (try dsimp only); omega, by (try dsimp only); omega⟩,
                      by (try dsimp only); omega, by (try dsimp only); omega, by (try dsimp only); omega, by (try dsimp only); omega⟩
                | dir =>
                    cases cr with
                    | some e0 =>
                        rw [scan_dir_childerr s ca st _ e0 hctx' hname
                          (by simp [LazyFileMetadata.initRes]) hsel
                          (by simp [LazyFileMetadata.mode])
                          (by simp [LazyFileMetadata.childRes])] at hscan
                        cases hscan
                        refine ⟨fun g => goodSt_append_nonresult st _ _ rfl g,
                          statsLe_refl _, by (try dsimp only); omega, by (try dsimp only); omega, by (try dsimp only); omega, by (try dsimp only); omega⟩
                    | none =>
                        cases hsc : scanChildren s ca
                            { checks := st.checks + 1, stats := st.stats,
                              trace := st.trace ++ [Event.initCall
                                (LazyFileMetadata.mk n p none Mode.dir sz none cs).path] }
                            (sortByName
                              (LazyFileMetadata.mk n p none Mode.dir sz none cs).children)
                            with
                        | mk st3 rc =>
                            have hwls : weightList (sortByName cs) = weightList cs := by
                              have := weightList_sortByName cs
                              simpa [LazyFileMetadata.children] using this
                            have hchmono := scanChildren_mono s ca
                              (sortByName
                                (LazyFileMetadata.mk n p none Mode.dir sz none cs).children)
                              (fun c2 h2 => IH c2 (mem_sortByName (by
                                simpa [LazyFileMetadata.children] using h2)))
                              _ st3 rc hsc
                              (by simp [LazyFileMetadata.children, hwls]; omega)
                              (by simp [LazyFileMetadata.children, hwls]; omega)
                              (by simp [LazyFileMetadata.children, hwls]; omega)
                              (by simp [LazyFileMetadata.children, hwls]; omega)
                            have hg0 : goodSt st → goodSt
                                { checks := st.checks + 1, stats := st.stats,
                                  trace := st.trace ++ [Event.initCall
                                    (LazyFileMetadata.mk n p none Mode.dir sz none
                                      cs).path] } :=
                              fun g => goodSt_append_nonresult st _ _ rfl g
                            have hwb : st3.stats.Files ≤ st.stats.Files + weightList cs ∧
                                st3.stats.Dirs ≤ st.stats.Dirs + weightList cs ∧
                                st3.stats.Others ≤ st.stats.Others + weightList cs ∧
                                st3.stats.Bytes ≤ st.stats.Bytes + weightList cs := by
                              have h1 := hchmono.2.2.1
                              have h2 := hchmono.2.2.2.1
                              have h3 := hchmono.2.2.2.2.1
                              have h4 := hchmono.2.2.2.2.2
                              simp [LazyFileMetadata.children, hwls] at h1 h2 h3 h4
                              exact ⟨h1, h2, h3, h4⟩
                            have hle3 : statsLe st.stats st3.stats := hchmono.2.1
                            cases rc with
                            | some e =>
                                rw [scan_dir_err s ca st st3 _ e hctx' hname
                                  (by simp [LazyFileMetadata.initRes]) hsel
                                  (by simp [LazyFileMetadata.mode])
                                  (by simp [LazyFileMetadata.childRes]) hsc] at hscan
                                cases hscan
                                refine ⟨fun g => hchmono.1 (hg0 g), hle3,
                                  by (try dsimp only); omega, by (try dsimp only); omega, by (try dsimp only); omega, by (try dsimp only); omega⟩
                            | none =>
                                rw [scan_dir_ok s ca st st3 _ hctx' hname
                                  (by simp [LazyFileMetadata.initRes]) hsel
                                  (by simp [LazyFileMetadata.mode])
                                  (by simp [LazyFileMetadata.childRes]) hsc] at hscan
                                cases hscan
                                have hdd := addDir_facts st3.stats (by (try dsimp only); omega)
                                refine ⟨?_, ?_, by (try dsimp only); omega, by (try dsimp only); omega, by (try dsimp only); omega, by (try dsimp only); omega⟩
                                · intro g
                                  have g3 : goodSt st3 := hchmono.1 (hg0 g)
                                  exact goodSt_append_result st3 _ _ _ rfl
                                    ⟨by (try dsimp only); omega, by (try dsimp only); omega, by (try dsimp only); omega, by (try dsimp only); omega⟩ g3
                                · exact statsLe_trans hle3
                                    ⟨by (try dsimp only); omega, by (try dsimp only); omega, by (try dsimp only); omega, by (try dsimp only); omega⟩

/-- `insertString` permutes the element onto the list. -/
theorem insertString_perm (x : String) (l : List String) :
    (insertString x l).Perm (x :: l) := by
  induction l with
  | nil => simp [insertString]
  | cons y ys ih =>
      by_cases h : strLt y x = true
      · simp only [insertString, h, if_true]
        exact (ih.cons y).trans (List.Perm.swap x y ys)
      · have h' : strLt y x = false := by simpa using h
        simp [insertString, h']

/-- `sortStrings` is a permutation of its input. -/
theorem sortStrings_perm (l : List String) : (sortStrings l).Perm l := by
  induction l with
  | nil => simp [sortStrings]
  | cons c cs ih =>
      exact (insertString_perm c (sortStrings cs)).trans (ih.cons c)

/-- A looked-up subtree of a key-nodup node list is key-nodup. -/
theorem nodesKeysNodup_lookup {ns : List (String × Tree)} {n : String} {t : Tree}
    (hwf : nodesKeysNodup ns = true) (hl : lookupTree ns n = some t) :
    treeKeysNodup t = true := by
  induction ns with
  | nil => simp [lookupTree] at hl
  | cons p rest ih =>
      cases p with
      | mk k tk =>
          simp [nodesKeysNodup] at hwf
          by_cases hk : k = n
          · simp [lookupTree, hk] at hl
            subst hl
            exact hwf.1
          · simp [lookupTree, hk] at hl
            exact ih hwf.2 hl

/-- Summing the looked-up tree weights over the (nodup) key list gives at
most the total weight of the node list. -/
theorem sum_lookup_keys :
    ∀ ns : List (String × Tree), strNodup (ns.map Prod.fst) = true →
      ((ns.map Prod.fst).map (fun nm =>
        match lookupTree ns nm with
        | none => 0
        | some t0 => treeWeight t0)).sum ≤ nodesWeight ns := by
  intro ns
  induction ns with
  | nil => intro h; simp
  | cons pr rest ih =>
      intro h
      cases pr with
      | mk k tk =>
          simp only [List.map_cons, strNodup, Bool.and_eq_true,
            Bool.not_eq_true'] at h
          have hnmem : k ∉ rest.map Prod.fst := by
            have := h.1
            simpa using this
          have hk : lookupTree ((k, tk) :: rest) k = some tk := by
            simp [lookupTree]
          have hfk : (match lookupTree ((k, tk) :: rest) k with
              | none => 0
              | some t0 => treeWeight t0) = treeWeight tk := by
            rw [hk]
          have hmapeq : ((rest.map Prod.fst).map (fun nm =>
              match lookupTree ((k, tk) :: rest) nm with
              | none => 0
              | some t0 => treeWeight t0)) =
              ((rest.map Prod.fst).map (fun nm =>
              match lookupTree rest nm with
              | none => 0
              | some t0 => treeWeight t0)) := by
            apply List.map_congr_left
            intro nm hnm
            have hne : k ≠ nm := by
              intro hkeq
              subst hkeq
              exact hnmem hnm
            simp [lookupTree, hne]
          simp only [List.map_cons, List.sum_cons, hfk]
          rw [hmapeq]
          have h2 := ih h.2
          rw [show nodesWeight ((k, tk) :: rest) = treeWeight tk + nodesWeight rest
            from rfl]
          omega

/-- The node-name loop: within the no-overflow budget given by the summed
looked-up weights, the threaded stats grow monotonically and the trace
chain is preserved (always for the trace, additionally for the final state
when no error is returned). -/
theorem scanTreeNodes_mono (s : Scanner) (ca : Option Nat)
    (ns : List (String × Tree))
    (hp : ∀ nm t0, lookupTree ns nm = some t0 →
      ∀ (st st1 : ScanState) (r : Option GoErr),
        scanTree s ca st t0 = (st1, r) →
        treeKeysNodup t0 = true →
        st.stats.Files + treeWeight t0 < W64 → st.stats.Dirs + treeWeight t0 < W64 →
        st.stats.Others + treeWeight t0 < W64 → st.stats.Bytes + treeWeight t0 < W64 →
        (goodSt st → List.Chain' statsLe (resStats st1.trace)) ∧
        (r = none → (goodSt st → goodSt st1) ∧ statsLe st.stats st1.stats ∧
          st1.stats.Files ≤ st.stats.Files + treeWeight t0 ∧
          st1.stats.Dirs ≤ st.stats.Dirs + treeWeight t0 ∧
          st1.stats.Others ≤ st.stats.Others + treeWeight t0 ∧
          st1.stats.Bytes ≤ st.stats.Bytes + treeWeight t0))
    (hknd : ∀ nm t0, lookupTree ns nm = some t0 → treeKeysNodup t0 = true) :
    ∀ (names : List String) (st st1 : ScanState) (r : Option GoErr),
      scanTreeNodes s ca st ns names = (st1, r) →
      st.stats.Files + (names.map (fun nm =>
        match lookupTree ns nm with
        | none => 0
        | some t0 => treeWeight t0)).sum < W64 →
      st.stats.Dirs + (names.map (fun nm =>
        match lookupTree ns nm with
        | none => 0
        | some t0 => treeWeight t0)).sum < W64 →
      st.stats.Others + (names.map (fun nm =>
        match lookupTree ns nm with
        | none => 0
        | some t0 => treeWeight t0)).sum < W64 →
      st.stats.Bytes + (names.map (fun nm =>
        match lookupTree ns nm with
        | none => 0
        | some t0 => treeWeight t0)).sum < W64 →
      (goodSt st → List.Chain' statsLe (resStats st1.trace)) ∧
      (r = none → (goodSt st → goodSt st1) ∧ statsLe st.stats st1.stats ∧
        st1.stats.Files ≤ st.stats.Files + (names.map (fun nm =>
          match lookupTree ns nm with
          | none => 0
          | some t0 => treeWeight t0)).sum ∧
        st1.stats.Dirs ≤ st.stats.Dirs + (names.map (fun nm =>
          match lookupTree ns nm with
          | none => 0
          | some t0 => treeWeight t0)).sum ∧
        st1.stats.Others ≤ st.stats.Others + (names.map (fun nm =>
          match lookupTree ns nm with
          | none => 0
          | some t0 => treeWeight t0)).sum ∧
        st1.stats.Bytes ≤ st.stats.Bytes + (names.map (fun nm =>
          match lookupTree ns nm with
          | none => 0
          | some t0 => treeWeight t0)).sum) := by
  intro names
  induction names with
  | nil =>
      intro st st1 r h hF hD hO hB
      rw [scanTreeNodes_nil] at h
      cases h
      refine ⟨fun g => chain_drop_last _ _ g, ?_⟩
      intro _
      exact ⟨fun g => g, statsLe_refl _, by simp, by simp, by simp, by simp⟩
  | cons nm rest ihn =>
      intro st st1 r h hF hD hO hB
      cases hl : lookupTree ns nm with
      | none =>
          rw [scanTreeNodes_cons_none s ca st ns nm rest hl] at h
          simp only [List.map_cons, List.sum_cons, hl] at hF hD hO hB ⊢
          have hrest := ihn st st1 r h (by omega) (by omega) (by omega) (by omega)
          refine ⟨hrest.1, ?_⟩
          intro hre
          have h2 := hrest.2 hre
          exact ⟨h2.1, h2.2.1, by omega, by omega, by omega, by omega⟩
      | some t0 =>
          simp only [List.map_cons, List.sum_cons, hl] at hF hD hO hB ⊢
          cases hscan : scanTree s ca st t0 with
          | mk stc rc =>
              have hm := hp nm t0 hl st stc rc hscan (hknd nm t0 hl)
                (by omega) (by omega) (by omega) (by omega)
              cases rc with
              | some e =>
                  rw [scanTreeNodes_cons_err s ca st stc ns nm rest t0 e hl hscan] at h
                  cases h
                  refine ⟨fun g => by simpa using hm.1 g, ?_⟩
                  intro hre
                  exact absurd hre (by simp)
              | none =>
                  have hmn := hm.2 rfl
                  by_cases hcx : ctxErr ca stc.checks = true
                  · rw [scanTreeNodes_cons_cancel s ca st stc ns nm rest t0 hl hscan
                      hcx] at h
                    cases h
                    refine ⟨fun g => by simpa using chain_drop_last _ _ (hmn.1 g), ?_⟩
                    intro _
                    have hb := hmn.2.2
                    refine ⟨fun g => hmn.1 g, hmn.2.1, by (try dsimp only); omega,
                      by (try dsimp only); omega, by (try dsimp only); omega,
                      by (try dsimp only); omega⟩
                  · have hcx' : ctxErr ca stc.checks = false := by simpa using hcx
                    rw [scanTreeNodes_cons_step s ca st stc ns nm rest t0 hl hscan
                      hcx'] at h
                    have hrest := ihn { stc with checks := stc.checks + 1 } st1 r h
                      (by (try dsimp only); omega) (by (try dsimp only); omega)
                      (by (try dsimp only); omega) (by (try dsimp only); omega)
                    refine ⟨?_, ?_⟩
                    · intro g
                      exact hrest.1 (hmn.1 g)
                    · intro hre
                      have h2 := hrest.2 hre
                      have hle2 := h2.2.1
                      have hb2F := h2.2.2.1
                      have hb2D := h2.2.2.2.1
                      have hb2O := h2.2.2.2.2.1
                      have hb2B := h2.2.2.2.2.2
                      simp only [ScanState.stats] at hle2 hb2F hb2D hb2O hb2B
                      refine ⟨fun g => h2.1 (hmn.1 g),
                        statsLe_trans hmn.2.1 hle2, ?_, ?_, ?_, ?_⟩
                      · have := hmn.2.2.1
                        omega
                      · have := hmn.2.2.2.1
                        omega
                      · have := hmn.2.2.2.2.1
                        omega
                      · have := hmn.2.2.2.2.2
                        omega

/-- `scanTree`: within the no-overflow budget `treeWeight` and with unique
child names at every node, the stats grow monotonically (when no error is
returned) and the delivered `Result` stats always form a chain. -/
theorem scanTree_mono (s : Scanner) (ca : Option Nat) :
    ∀ (tr : Tree) (st st1 : ScanState) (r : Option GoErr),
      scanTree s ca st tr = (st1, r) →
      treeKeysNodup tr = true →
      st.stats.Files + treeWeight tr < W64 → st.stats.Dirs + treeWeight tr < W64 →
      st.stats.Others + treeWeight tr < W64 → st.stats.Bytes + treeWeight tr < W64 →
      (goodSt st → List.Chain' statsLe (resStats st1.trace)) ∧
      (r = none → (goodSt st → goodSt st1) ∧ statsLe st.stats st1.stats ∧
        st1.stats.Files ≤ st.stats.Files + treeWeight tr ∧
        st1.stats.Dirs ≤ st.stats.Dirs + treeWeight tr ∧
        st1.stats.Others ≤ st.stats.Others + treeWeight tr ∧
        st1.stats.Bytes ≤ st.stats.Bytes + treeWeight tr) := by
  refine inductOnTree ?_ ?_
  · intro fm st st1 r h hk hF hD hO hB
    cases fm with
    | error e =>
        rw [scanTree_leaf_err] at h
        cases h
        refine ⟨fun g => by simpa using chain_drop_last _ _ g, ?_⟩
        intro hre
        exact absurd hre (by simp)
    | ok ab =>
        have htw : treeWeight (Tree.leaf (Except.ok ab)) = weight ab := rfl
        rw [htw] at hF hD hO hB ⊢
        cases hscan : scan s ca st ab with
        | mk stc rc =>
            have hm := scan_mono s ca ab st stc rc hscan hF hD hO hB
            cases rc with
            | none =>
                rw [scanTree_leaf_ok_ok s ca st stc ab hscan] at h
                cases h
                refine ⟨fun g => chain_drop_last _ _ (hm.1 g), ?_⟩
                intro _
                exact ⟨hm.1, hm.2.1, hm.2.2.1, hm.2.2.2.1, hm.2.2.2.2.1,
                  hm.2.2.2.2.2⟩
            | some e =>
                rw [scanTree_leaf_ok_err s ca st stc ab e hscan] at h
                cases h
                refine ⟨fun g => by simpa using chain_drop_last _ _ (hm.1 g), ?_⟩
                intro hre
                exact absurd hre (by simp)
  · intro ns IH st st1 r h hk hF hD hO hB
    rw [scanTree_node] at h
    simp only [treeKeysNodup, Bool.and_eq_true] at hk
    have htw : treeWeight (Tree.node ns) = nodesWeight ns := rfl
    rw [htw] at hF hD hO hB ⊢
    have hsum : ((nodeNames ns).map (fun nm =>
        match lookupTree ns nm with
        | none => 0
        | some t0 => treeWeight t0)).sum ≤ nodesWeight ns := by
      have hperm := (sortStrings_perm (ns.map Prod.fst)).map (fun nm =>
        match lookupTree ns nm with
        | none => 0
        | some t0 => treeWeight t0)
      have := hperm.sum_eq
      rw [show nodeNames ns = sortStrings (ns.map Prod.fst) from rfl]
      rw [this]
      exact sum_lookup_keys ns hk.1
    have hloop := scanTreeNodes_mono s ca ns
      (fun nm t0 hl => IH nm t0 hl)
      (fun nm t0 hl => nodesKeysNodup_lookup hk.2 hl)
      (nodeNames ns) st st1 r h (by omega) (by omega) (by omega) (by omega)
    refine ⟨hloop.1, ?_⟩
    intro hre
    have h2 := hloop.2 hre
    exact ⟨h2.1, h2.2.1, by omega, by omega, by omega, by omega⟩

/-- C8, counterexample to the claim as stated: stats are NOT monotonically
non-decreasing across the values delivered to `Result` in general, because
the Go counters wrap.  Scanning a directory of three files of `2^63 - 1`
bytes each delivers `Bytes` values `2^63 - 1`, then `2^64 - 2`, then
(after the third file wraps the 64-bit accumulator) `2^63 - 3` — a strict
decrease between consecutive `Result` calls. -/
theorem C8_counterexample :
    ¬ List.Chain' statsLe (resStats (Scan NewScanner none trHuge).1) := by
  intro hch
  rw [← ScanF_eq NewScanner none 30000000000000000000 trHuge (by decide)] at hch
  rw [show resStats (ScanF NewScanner none 30000000000000000000 trHuge).1 =
        [ScanStats.mk 1 0 0 9223372036854775807,
         ScanStats.mk 2 0 0 18446744073709551614,
         ScanStats.mk 3 0 0 9223372036854775805,
         ScanStats.mk 3 1 0 9223372036854775805,
         ScanStats.mk 3 1 0 9223372036854775805] from by decide] at hch
  simp only [List.chain'_cons] at hch
  exact absurd hch.2.1 (by decide)

/-- C8 (amended): provided no 64-bit counter can wrap — the tree's total
weight (one per entry plus its byte size, summed over all entries) stays
below `2^64` — and each node's child names are distinct, every field of
the stats delivered to `Result` over a whole `Scan` is monotonically
non-decreasing in delivery order; and on an error-free walk the final
empty-path `Result` carries exactly the cumulative threaded stats, which
dominate every intermediate delivery (cumulative, not a delta). -/
theorem C8_amended (s : Scanner) (ca : Option Nat) (tr : Tree)
    (hk : treeKeysNodup tr = true) (hw : treeWeight tr < W64) :
    List.Chain' statsLe (resStats (Scan s ca tr).1) ∧
    (∀ st1, scanTree s ca { checks := 0, stats := {}, trace := [] } tr = (st1, none) →
      (Scan s ca tr).1 = st1.trace ++ [Event.result "" st1.stats] ∧
      resStats (Scan s ca tr).1 = resStats st1.trace ++ [st1.stats] ∧
      ∀ x ∈ resStats (Scan s ca tr).1, statsLe x st1.stats) := by
  have hg0 : goodSt { checks := 0, stats := {}, trace := [] } := by
    unfold goodSt
    simp [resStats, resultEvents]
  cases hrun : scanTree s ca { checks := 0, stats := {}, trace := [] } tr with
  | mk st1 r =>
      have hm := scanTree_mono s ca tr { checks := 0, stats := {}, trace := [] }
        st1 r hrun hk (by show 0 + treeWeight tr < W64; omega)
        (by show 0 + treeWeight tr < W64; omega)
        (by show 0 + treeWeight tr < W64; omega)
        (by show 0 + treeWeight tr < W64; omega)
      cases r with
      | some e =>
          rw [Scan_error s ca tr st1 e hrun]
          refine ⟨hm.1 hg0, ?_⟩
          intro st1' hrun'
          simp at hrun'
      | none =>
          have hmn := hm.2 rfl
          have hg1 : goodSt st1 := hmn.1 hg0
          rw [Scan_success s ca tr st1 hrun]
          have hfull : resStats (st1.trace ++ [Event.result "" st1.stats]) =
              resStats st1.trace ++ [st1.stats] := by
            rw [resStats_append]
            rfl
          refine ⟨?_, ?_⟩
          · show List.Chain' statsLe
              (resStats (st1.trace ++ [Event.result "" st1.stats]))
            rw [hfull]
            exact hg1
          · intro st1' hrun'
            have hst : st1 = st1' := by simpa using hrun'
            subst hst
            refine ⟨rfl, hfull, ?_⟩
            intro x hx
            rw [show resStats ((st1.trace ++ [Event.result "" st1.stats],
              (none : Option GoErr)).1) =
              resStats (st1.trace ++ [Event.result "" st1.stats]) from rfl,
              hfull] at hx
            exact chain_le_last (resStats st1.trace) st1.stats hg1 x hx

/-- C8 witness: the amended theorem applied to the concrete three-file
directory `trG` (sizes 10, 20, 30), whose weight is far below `2^64`. -/
theorem C8_witness :
    treeKeysNodup trG = true ∧ treeWeight trG < W64 ∧
    List.Chain' statsLe (resStats (Scan NewScanner none trG).1) :=
  ⟨by decide, by decide, (C8_amended NewScanner none trG (by decide) (by decide)).1⟩

end ResticScan
